import Mathlib

/-!
Verification of the N-plus-1 sentence generator (src/generator/lang_gen.py)
against its natural-language specification.

Python strings are modelled as lists of characters (abbrev Str).  The char
operations model the ASCII fragment of the Python string methods used by the
source (str.lower, str.upper on the first character, str.strip, str.split).
All inputs manipulated by the program in scope -- lemma keys, generated
sentences, filenames -- are ASCII, so this fragment is faithful.
-/

namespace LangGen

/-- Python strings, modelled as lists of characters. -/
abbrev Str := List Char

/-- Whitespace test used by str.strip and str.split (ASCII fragment). -/
def isSpaceCh (c : Char) : Bool :=
  c = ' ' || c = '\t' || c = '\n' || c = '\r'

/-- ASCII fragment of str.lower applied to one character. -/
def lowerCh (c : Char) : Char :=
  if 65 ≤ c.toNat ∧ c.toNat ≤ 90 then Char.ofNat (c.toNat + 32) else c

/-- ASCII fragment of str.upper applied to one character. -/
def upperCh (c : Char) : Char :=
  if 97 ≤ c.toNat ∧ c.toNat ≤ 122 then Char.ofNat (c.toNat - 32) else c

/-- Python str.lower on a whole string (ASCII fragment). -/
def lowerStr (s : Str) : Str := s.map lowerCh

theorem toNat_ofNat_of_lt (n : Nat) (h : n < 55296) : (Char.ofNat n).toNat = n := by
  have hv : n.isValidChar := Or.inl h
  simp only [Char.ofNat, hv, dif_pos]
  rfl

theorem char_eq_iff_toNat (c d : Char) : c = d ↔ c.toNat = d.toNat := by
  constructor
  · intro h
    rw [h]
  · intro h
    rw [← Char.ofNat_toNat c, h, Char.ofNat_toNat]

theorem lowerCh_idem (c : Char) : lowerCh (lowerCh c) = lowerCh c := by
  unfold lowerCh
  by_cases h : 65 ≤ c.toNat ∧ c.toNat ≤ 90
  · have h1 : (Char.ofNat (c.toNat + 32)).toNat = c.toNat + 32 := by
      apply toNat_ofNat_of_lt
      omega
    rw [if_pos h, if_neg (by rw [h1]; omega)]
  · rw [if_neg h, if_neg h]

theorem lowerStr_idem (s : Str) : lowerStr (lowerStr s) = lowerStr s := by
  unfold lowerStr
  simp [List.map_map, Function.comp_def, lowerCh_idem]

theorem lowerCh_upperCh (c : Char) : lowerCh (upperCh c) = lowerCh c := by
  unfold lowerCh upperCh
  by_cases h : 97 ≤ c.toNat ∧ c.toNat ≤ 122
  · have h1 : (Char.ofNat (c.toNat - 32)).toNat = c.toNat - 32 := by
      apply toNat_ofNat_of_lt
      omega
    have h2 : c.toNat - 32 + 32 = c.toNat := by omega
    rw [if_pos h, if_pos (by rw [h1]; omega), if_neg (by omega), h1, h2,
      Char.ofNat_toNat]
  · rw [if_neg h]

theorem isSpaceCh_eq_false_iff (c : Char) :
    isSpaceCh c = false ↔
      (c.toNat ≠ 32 ∧ c.toNat ≠ 9 ∧ c.toNat ≠ 10 ∧ c.toNat ≠ 13) := by
  have e1 : (' ' : Char).toNat = 32 := rfl
  have e2 : ('\t' : Char).toNat = 9 := rfl
  have e3 : ('\n' : Char).toNat = 10 := rfl
  have e4 : ('\r' : Char).toNat = 13 := rfl
  unfold isSpaceCh
  simp only [Bool.or_eq_false_iff, decide_eq_false_iff_not,
    char_eq_iff_toNat, e1, e2, e3, e4]
  constructor
  · rintro ⟨⟨⟨h1, h2⟩, h3⟩, h4⟩
    exact ⟨h1, h2, h3, h4⟩
  · rintro ⟨h1, h2, h3, h4⟩
    exact ⟨⟨⟨h1, h2⟩, h3⟩, h4⟩

/-- Uppercasing keeps a character outside the whitespace set. -/
theorem isSpaceCh_upperCh (c : Char) (h : isSpaceCh c = false) :
    isSpaceCh (upperCh c) = false := by
  rw [isSpaceCh_eq_false_iff] at h ⊢
  unfold upperCh
  by_cases hc : 97 ≤ c.toNat ∧ c.toNat ≤ 122
  · rw [if_pos hc, toNat_ofNat_of_lt _ (by omega)]
    omega
  · rw [if_neg hc]
    exact h

/-- Lowercasing a character other than the period never yields the period. -/
theorem lowerCh_eq_dot (c : Char) (h : lowerCh c = '.') : c = '.' := by
  unfold lowerCh at h
  by_cases hc : 65 ≤ c.toNat ∧ c.toNat ≤ 90
  · rw [if_pos hc, char_eq_iff_toNat, toNat_ofNat_of_lt _ (by omega)] at h
    have hdot : ('.' : Char).toNat = 46 := rfl
    rw [hdot] at h
    exact absurd h (by omega)
  · rw [if_neg hc] at h
    exact h

/-! ## Data structures (lang_gen.py, dataclasses ListEntry / LemmatizedSentence).
The Python field named lemma is called lem here because lemma is a reserved
word in Lean; it still denotes the same field of the dataclass. -/

/-- Dataclass ListEntry: a lemma and an optional committed sentence. -/
structure ListEntry where
  lem : Str
  sentence : Option Str
deriving DecidableEq

/-- Dataclass LemmatizedSentence: original text, cleaned text, aligned
token and lemma sequences. -/
structure LemmatizedSentence where
  original : Str
  cleaned : Str
  tokens : List Str
  lemmas : List Str
deriving DecidableEq

/-! ## File utilities (parse_list_file / write_list_file, lang_gen.py 67-100).
The functions are modelled on the list of lines of the file: the Python code
iterates over lines with the trailing newline removed (rstrip of the line
terminator), so the embedding takes the lines as input and produces the lines
that would be written. -/

/-- Python str.strip: drop whitespace from both ends. -/
def strip (s : Str) : Str :=
  ((s.dropWhile isSpaceCh).reverse.dropWhile isSpaceCh).reverse

/-- The part of a line before the first tab (first component of
line.split of a tab with maxsplit 1). -/
def beforeTab (s : Str) : Str := s.takeWhile (fun c => c ≠ '\t')

/-- The part of a line after the first tab (second component of
line.split of a tab with maxsplit 1). -/
def afterTab (s : Str) : Str := (s.dropWhile (fun c => c ≠ '\t')).tail

/-- Parsing of one non-blank line of a list file (body of the loop in
parse_list_file): a line with a tab is split into lemma and sentence, the
sentence becoming None when blank; a line without a tab is a bare lemma. -/
def parseLine (line : Str) : ListEntry :=
  if '\t' ∈ line then
    ⟨strip (beforeTab line),
      if strip (afterTab line) = [] then none else some (strip (afterTab line))⟩
  else
    ⟨strip line, none⟩

/-- parse_list_file on the lines of the file: blank lines are skipped, every
other line is parsed by parseLine. -/
def parse_list_file (lines : List Str) : List ListEntry :=
  (lines.filter (fun l => decide (strip l ≠ []))).map parseLine

/-- The line write_list_file emits for one entry: lemma, tab and sentence when
the sentence is truthy (present and non-empty), the bare lemma otherwise. -/
def serializeEntry (e : ListEntry) : Str :=
  match e.sentence with
  | some s => if s = [] then e.lem else e.lem ++ '\t' :: s
  | none => e.lem

/-- write_list_file on a list of entries, producing the lines written. -/
def write_list_file (entries : List ListEntry) : List Str :=
  entries.map serializeEntry

/-- A line is well formed when it has the shape produced by write_list_file:
either a bare non-empty stripped lemma without a tab, or a stripped lemma
without a tab followed by a tab and a non-empty stripped sentence. -/
def wellFormedLine (line : Str) : Prop :=
  if '\t' ∈ line then
    strip (beforeTab line) = beforeTab line ∧
    strip (afterTab line) = afterTab line ∧ afterTab line ≠ []
  else
    strip line = line ∧ line ≠ []

instance (line : Str) : Decidable (wellFormedLine line) := by
  unfold wellFormedLine
  infer_instance

/-! ## Step 1: find_next_undone_lemma (lang_gen.py 128-139). -/

/-- Clamping of the skip count performed at the top of find_next_undone_lemma:
a negative skip_count becomes 0, and the scan start is capped at the length of
the list. -/
def clampStart (entries : List ListEntry) (skip_count : Int) : Nat :=
  min (Int.toNat (if skip_count < 0 then 0 else skip_count)) entries.length

/-- The scanning loop of find_next_undone_lemma: walk the remaining entries,
carrying the absolute index, and return the first entry without a sentence. -/
def findUndoneAux : List ListEntry → Nat → Option (Nat × Str)
  | [], _ => none
  | e :: es, i => if e.sentence = none then some (i, e.lem) else findUndoneAux es (i + 1)

/-- find_next_undone_lemma: scan from the clamped start for the first entry
whose sentence is None.  The Python function raises ValueError when none is
found; the failure is modelled as the None result. -/
def find_next_undone_lemma (entries : List ListEntry) (skip_count : Int) :
    Option (Nat × Str) :=
  findUndoneAux (entries.drop (clampStart entries skip_count))
    (clampStart entries skip_count)

/-! ## Filename versioning (get_next_filename, lang_gen.py 103-123). -/

/-- os.path.basename for the paths in scope: the part after the last slash. -/
def basename (p : Str) : Str := (p.reverse.takeWhile (fun c => c ≠ '/')).reverse

/-- int() on a digit string. -/
def digitsToNat (ds : Str) : Nat := ds.foldl (fun n c => n * 10 + (c.toNat - 48)) 0

/-- str() on a natural number. -/
def natToStr (n : Nat) : Str := Nat.toDigits 10 n

/-- The anchored regular expression of get_next_filename: one or more digits,
optionally followed by a dot and one or more characters none of which is a
dot.  Backtracking cannot help this pattern, so it matches exactly when the
maximal digit prefix is non-empty and the remainder is empty or one dot
followed by a non-empty dot-free extension. -/
def matchNumberExt (base : Str) : Option (Str × Option Str) :=
  if base.takeWhile Char.isDigit = [] then none
  else if base.dropWhile Char.isDigit = [] then
    some (base.takeWhile Char.isDigit, none)
  else if (base.dropWhile Char.isDigit).head? = some '.' ∧
      (base.dropWhile Char.isDigit).tail ≠ [] ∧
      (base.dropWhile Char.isDigit).tail.all (fun d => decide (d ≠ '.')) then
    some (base.takeWhile Char.isDigit, some (base.dropWhile Char.isDigit))
  else none

/-- os.path.splitext on a name without directory separators: split at the last
dot, unless every character before that dot is itself a dot. -/
def splitext (p : Str) : Str × Str :=
  match p.reverse.findIdx? (fun c => c = '.') with
  | none => (p, [])
  | some r =>
    let sepIndex := p.length - 1 - r
    if (p.take sepIndex).any (fun c => decide (c ≠ '.')) then
      (p.take sepIndex, p.drop sepIndex)
    else (p, [])

/-- get_next_filename: increment the leading integer of the base name when the
anchored pattern matches, preserving the extension (default .txt); otherwise
fall back to splitext, incrementing an all-digit stem, or appending .next when
there is no leading integer at all. -/
def get_next_filename (current : Str) : Str :=
  match matchNumberExt (basename current) with
  | some (number, ext) => natToStr (digitsToNat number + 1) ++ ext.getD ".txt".data
  | none =>
    if (splitext (basename current)).1 ≠ [] ∧
        (splitext (basename current)).1.all Char.isDigit then
      natToStr (digitsToNat (splitext (basename current)).1 + 1) ++
        (if (splitext (basename current)).2 ≠ [] then (splitext (basename current)).2
          else ".txt".data)
    else basename current ++ ".next".data

/-! ## Step 2 fallback: _fallback_sentence (lang_gen.py 273-292).
The random draws of the function are parameters of the embedding: insert_pos
models rng.randint(0, max(0, word_count - 1)) and fillers i models the i-th
rng.choice(base_words).  The callers guarantee a non-empty sentence, so the
first-character access of the Python code is total here. -/

/-- The fixed filler vocabulary base_words. -/
def base_words : List Str :=
  (["today", "people", "often", "quickly", "learn", "new", "ideas", "through",
    "simple", "practice", "we", "can", "easily", "build", "useful", "skills",
    "together", "by", "trying", "examples"] : List String).map String.data

/-- The word list built by the loop of _fallback_sentence: the target lemma at
position insert_pos, a filler draw everywhere else. -/
def fallbackWords (lem : Str) (word_count : Nat) (insert_pos : Nat)
    (fillers : Nat → Str) : List Str :=
  (List.range word_count).map (fun i => if i = insert_pos then lem else fillers i)

/-- Python str.join with a single space. -/
def joinSpace : List Str → Str
  | [] => []
  | [w] => w
  | w :: ws => w ++ ' ' :: joinSpace ws

/-- sent.upper on the first character only (sent[0].upper() + sent[1:]). -/
def capFirst : Str → Str
  | [] => []
  | c :: cs => upperCh c :: cs

/-- _fallback_sentence: join the words, capitalize the first character and
append a period. -/
def fallbackSentence (lem : Str) (word_count : Nat) (insert_pos : Nat)
    (fillers : Nat → Str) : Str :=
  capFirst (joinSpace (fallbackWords lem word_count insert_pos fillers)) ++ ['.']

/-- Python str.split with no argument: maximal runs of non-whitespace. -/
def splitWS : Str → List Str
  | [] => []
  | c :: cs =>
    if isSpaceCh c then splitWS cs
    else (c :: cs.takeWhile (fun d => !isSpaceCh d)) ::
      splitWS (cs.dropWhile (fun d => !isSpaceCh d))
termination_by s => s.length
decreasing_by
  · simp only [List.length_cons]
    omega
  · have := (List.dropWhile_sublist (l := cs) (fun d => !isSpaceCh d)).length_le
    simp only [List.length_cons]
    omega

/-! ## Step 4: choose_best_sentence (lang_gen.py 362-399). -/

/-- Python string comparison (lexicographic by code point), as used by
sorted(). -/
def lexLt : Str → Str → Bool
  | [], [] => false
  | [], _ :: _ => true
  | _ :: _, [] => false
  | a :: as, b :: bs => if a < b then true else if b < a then false else lexLt as bs

/-- Insertion into a strictly sorted list, skipping duplicates. -/
def insertSorted (x : Str) : List Str → List Str
  | [] => [x]
  | y :: ys =>
    if lexLt x y then x :: y :: ys
    else if x = y then y :: ys
    else y :: insertSorted x ys

/-- sorted() applied to a set of strings: the strictly sorted list of the
distinct elements. -/
def sortDedup (l : List Str) : List Str := l.foldr insertSorted []

/-- One element of the candidates list of choose_best_sentence: the sentence,
its novel-lemma count, its token count and the sorted novel-lemma list. -/
structure ScoredCand where
  ls : LemmatizedSentence
  unknown_count : Nat
  token_count : Nat
  unknown_list : List Str
deriving DecidableEq

/-- lemmas_lower of one candidate: its non-empty lemmas, case-folded. -/
def lemmasLower (ls : LemmatizedSentence) : List Str :=
  (ls.lemmas.filter (fun l => decide (l ≠ []))).map lowerStr

/-- The sorted set of case-folded lemmas of a candidate outside the known
set (the unknown value of the scoring loop). -/
def unknownOf (ls : LemmatizedSentence) (prevKeys : List Str) : List Str :=
  sortDedup ((lemmasLower ls).filter (fun l => decide (l ∉ prevKeys)))

/-- The candidates list of choose_best_sentence: sentences whose case-folded
non-empty lemmas contain the target, scored by the distinct lemmas outside
prevKeys. -/
def scoreCandidates (target : Str) (lemmatized : List LemmatizedSentence)
    (prevKeys : List Str) : List ScoredCand :=
  lemmatized.filterMap (fun ls =>
    if target ∈ lemmasLower ls then
      some ⟨ls, (unknownOf ls prevKeys).length, ls.tokens.length,
        unknownOf ls prevKeys⟩
    else none)

/-- Strict comparison of the sort key (unknown_count, token_count) used by
candidates.sort. -/
def keyLtB (a b : ScoredCand) : Bool :=
  decide (a.unknown_count < b.unknown_count) ||
  (decide (a.unknown_count = b.unknown_count) &&
    decide (a.token_count < b.token_count))

/-- Left fold computing the head of the stable sort of candidates by the key
(unknown_count, token_count): candidates.sort is stable, so candidates[0]
after sorting is the leftmost candidate with the minimal key, which is what
this fold returns (a later candidate replaces the current best only when its
key is strictly smaller). -/
def selectFrom (best : ScoredCand) : List ScoredCand → ScoredCand
  | [] => best
  | c :: cs => selectFrom (if keyLtB c best then c else best) cs

/-- choose_best_sentence: filter and score the candidates, then pick the head
of the stable sort by (unknown_count, token_count); None when no candidate
contains the target lemma. -/
def choose_best_sentence (target_lemma : Str)
    (lemmatized : List LemmatizedSentence) (prev_lemmas : List Str) :
    Option ScoredCand :=
  match scoreCandidates (lowerStr target_lemma) lemmatized
      (prev_lemmas.map lowerStr) with
  | [] => none
  | c :: cs => some (selectFrom c cs)

/-! ## Step 4: apply_sentence_and_reorder (lang_gen.py 402-501). -/

/-- The lemma_to_first_index lookup: index of the first entry whose
case-folded lemma equals the key. -/
def firstIdxAux (key : Str) : List ListEntry → Option Nat
  | [] => none
  | e :: es =>
    if lowerStr e.lem = key then some 0 else (firstIdxAux key es).map (· + 1)

/-- lemma_to_first_index.get: position of the first case-insensitive
occurrence of a key among the entries. -/
def firstIndexOf (entries : List ListEntry) (key : Str) : Option Nat :=
  firstIdxAux key entries

/-- Membership in all_head_lemmas_set. -/
def hasKey (entries : List ListEntry) (key : Str) : Bool :=
  entries.any (fun e => decide (lowerStr e.lem = key))

/-- The partition loop of apply_sentence_and_reorder: each unknown equal to
the current key is skipped; an unknown present in the file joins reorders when
its first occurrence is after current_index (and is ignored otherwise); an
unknown absent from the file joins out_of_bound.  The missing-key arm of the
match mirrors dict.get returning -1, which never exceeds current_index. -/
def partitionUnknowns (entries : List ListEntry) (currentKey : Str)
    (current_index : Nat) : List Str → List Str × List Str
  | [] => ([], [])
  | l :: ls =>
    if l = currentKey then partitionUnknowns entries currentKey current_index ls
    else if hasKey entries l then
      match firstIndexOf entries l with
      | some origIdx =>
        if current_index < origIdx then
          (l :: (partitionUnknowns entries currentKey current_index ls).1,
            (partitionUnknowns entries currentKey current_index ls).2)
        else partitionUnknowns entries currentKey current_index ls
      | none => partitionUnknowns entries currentKey current_index ls
    else ((partitionUnknowns entries currentKey current_index ls).1,
      l :: (partitionUnknowns entries currentKey current_index ls).2)

/-- The to_insert loop: for each unknown in order, carry over the existing
entry when it is a reorder, create a fresh sentence-less entry when it is
out_of_bound, and skip it otherwise.  The inner match arms that drop the item
mirror the unreachable KeyError of the Python lookup. -/
def toInsert (entries : List ListEntry) (reorders oob : List Str) :
    List Str → List ListEntry
  | [] => []
  | l :: ls =>
    if l ∈ reorders then
      match firstIndexOf entries l with
      | some origIdx =>
        match entries[origIdx]? with
        | some e => ⟨e.lem, e.sentence⟩ :: toInsert entries reorders oob ls
        | none => toInsert entries reorders oob ls
      | none => toInsert entries reorders oob ls
    else if l ∈ oob then ⟨l, none⟩ :: toInsert entries reorders oob ls
    else toInsert entries reorders oob ls

/-- The filtering loop over the tail slice: the first row (the updated current
entry) is kept unconditionally, every later row whose case-folded lemma is a
reorder key is dropped. -/
def filteredAfter (reorders : List Str) : List ListEntry → List ListEntry
  | [] => []
  | e :: rest => e :: rest.filter (fun x => decide (lowerStr x.lem ∉ reorders))

/-- The info dictionary returned by apply_sentence_and_reorder (the two counts
of the Python dictionary are the lengths of these lists). -/
structure ReorderInfo where
  out_of_bound : List Str
  reorders : List Str
deriving DecidableEq

/-- apply_sentence_and_reorder: attach the chosen sentence to the entry at
current_index and rebuild the list as before-slice, insertion block, filtered
tail.  The missing-index arm mirrors the IndexError of the Python code (it is
unreachable from the orchestrator). -/
def apply_sentence_and_reorder (entries : List ListEntry) (current_index : Nat)
    (chosen : LemmatizedSentence) (unknown_lemmas : List Str) :
    List ListEntry × ReorderInfo :=
  match entries[current_index]? with
  | none => (entries, ⟨[], []⟩)
  | some cur =>
    if unknown_lemmas = [] then
      (entries.set current_index ⟨cur.lem, some chosen.original⟩, ⟨[], []⟩)
    else
      ((entries.set current_index ⟨cur.lem, some chosen.original⟩).take
          current_index ++
        toInsert entries
          (partitionUnknowns entries (lowerStr cur.lem) current_index
            unknown_lemmas).1
          (partitionUnknowns entries (lowerStr cur.lem) current_index
            unknown_lemmas).2
          unknown_lemmas ++
        filteredAfter
          (partitionUnknowns entries (lowerStr cur.lem) current_index
            unknown_lemmas).1
          ((entries.set current_index ⟨cur.lem, some chosen.original⟩).drop
            current_index),
        ⟨(partitionUnknowns entries (lowerStr cur.lem) current_index
            unknown_lemmas).2,
          (partitionUnknowns entries (lowerStr cur.lem) current_index
            unknown_lemmas).1⟩)

/-- Position of the updated current entry inside the output of
apply_sentence_and_reorder: shifted right by the length of the insertion
block. -/
def currentPositionAfter (entries : List ListEntry) (current_index : Nat)
    (unknown_lemmas : List Str) : Nat :=
  match entries[current_index]? with
  | none => current_index
  | some cur =>
    if unknown_lemmas = [] then current_index
    else
      current_index + (toInsert entries
        (partitionUnknowns entries (lowerStr cur.lem) current_index
          unknown_lemmas).1
        (partitionUnknowns entries (lowerStr cur.lem) current_index
          unknown_lemmas).2
        unknown_lemmas).length

/-! ## Orchestration (generate_language_learning_list, lang_gen.py 506-576).
The two external services are oracle parameters; file contents stand for the
files on disk: the run returns the list of file contents it writes, so an
empty result models a run that writes nothing. -/

/-- The case-folded lemmas of the entries strictly before a position
(prev_set of the orchestrator). -/
def prevKeys (entries : List ListEntry) (idx : Nat) : List Str :=
  (entries.take idx).map (fun e => lowerStr e.lem)

/-- The unknowns list the orchestrator computes for the chosen sentence
(lang_gen.py 555): case-folded non-empty lemmas not previously known, in
sentence order, duplicates preserved. -/
def computeUnknowns (lemmas : List Str) (prev : List Str) : List Str :=
  lemmas.filterMap (fun l =>
    if l = [] then none
    else if lowerStr l ∈ prev then none
    else some (lowerStr l))

/-- One step of the orchestrator given the lemmatized candidate sentences the
external services return: locate the target, score, and either produce the
new file contents or nothing (ValueError on exhaustion, or the NoCandidate
break). -/
def stepOnce (entries : List ListEntry) (skip_count : Int)
    (lemmatized : List LemmatizedSentence) : Option (List ListEntry) :=
  match find_next_undone_lemma entries skip_count with
  | none => none
  | some (idx, lem) =>
    match choose_best_sentence lem lemmatized
        ((entries.take idx).map ListEntry.lem) with
    | none => none
    | some sc =>
      some (apply_sentence_and_reorder entries idx sc.ls
        (computeUnknowns sc.ls.lemmas
          (((entries.take idx).map ListEntry.lem).map lowerStr))).1

/-- The step loop: run up to the requested number of steps, stopping at the
first step that writes nothing, and return the written file contents in
order. -/
def runSteps (skip_count : Int) (oracle : Nat → List LemmatizedSentence) :
    Nat → Nat → List ListEntry → List (List ListEntry)
  | 0, _, _ => []
  | steps + 1, k, entries =>
    match stepOnce entries skip_count (oracle k) with
    | none => []
    | some out => out :: runSteps skip_count oracle steps (k + 1) out

/-! ## Helper lemmas about takeWhile and dropWhile. -/

theorem takeWhile_all {p : α → Bool} {xs : List α} (h : ∀ a ∈ xs, p a = true) :
    xs.takeWhile p = xs := by
  induction xs with
  | nil => rfl
  | cons a as ih =>
    rw [List.takeWhile_cons, if_pos (h a (List.mem_cons_self a as))]
    rw [ih (fun b hb => h b (List.mem_cons_of_mem a hb))]

theorem dropWhile_all {p : α → Bool} {xs : List α} (h : ∀ a ∈ xs, p a = true) :
    xs.dropWhile p = [] := by
  induction xs with
  | nil => rfl
  | cons a as ih =>
    rw [List.dropWhile_cons, if_pos (h a (List.mem_cons_self a as))]
    exact ih (fun b hb => h b (List.mem_cons_of_mem a hb))

theorem isDigit_ne_slash {c : Char} (hc : c.isDigit = true) : c ≠ '/' := by
  intro he
  rw [he] at hc
  exact absurd hc (by decide)

theorem isDigit_ne_dot {c : Char} (hc : c.isDigit = true) : c ≠ '.' := by
  intro he
  rw [he] at hc
  exact absurd hc (by decide)

theorem basename_of_no_slash {p : Str} (h : ∀ c ∈ p, c ≠ '/') :
    basename p = p := by
  unfold basename
  rw [takeWhile_all, List.reverse_reverse]
  intro a ha
  simp only [decide_eq_true_eq]
  exact h a (List.mem_reverse.mp ha)

/-- C9 counterexample: on the input 1.2.3 the code appends .next instead of
incrementing the leading integer (the claim would require an output whose
leading integer is 2 and, failing parsability, a .txt extension). -/
theorem c9_counterexample :
    get_next_filename "1.2.3".data = "1.2.3.next".data ∧
      ("1.2.3.next".data.takeWhile Char.isDigit ≠
        natToStr (digitsToNat ("1.2.3".data.takeWhile Char.isDigit) + 1)) := by
  constructor
  · decide
  · decide

/-- C9 amended: for every file name whose base name is a non-empty digit
string, optionally followed by a dot and a non-empty dot-free extension, the
output is the incremented integer with the extension preserved, the extension
defaulting to .txt when absent.  (Names the leading-integer pattern does not
match are instead returned with .next appended, or handled by the splitext
fallback, as the counterexample shows.) -/
theorem c9_next_filename (ds ext : Str) (hds : ds ≠ [])
    (hdig : ∀ c ∈ ds, c.isDigit = true) :
    get_next_filename ds = natToStr (digitsToNat ds + 1) ++ ".txt".data ∧
      (ext ≠ [] → (∀ c ∈ ext, c ≠ '.') → (∀ c ∈ ext, c ≠ '/') →
        get_next_filename (ds ++ '.' :: ext) =
          natToStr (digitsToNat ds + 1) ++ '.' :: ext) := by
  have hslash : ∀ c ∈ ds, c ≠ '/' := fun c hc => isDigit_ne_slash (hdig c hc)
  constructor
  · unfold get_next_filename
    rw [basename_of_no_slash hslash]
    unfold matchNumberExt
    rw [takeWhile_all hdig, dropWhile_all hdig, if_neg hds, if_pos rfl]
    rfl
  · intro hne hdot hsl2
    have hsl3 : ∀ c ∈ ds ++ '.' :: ext, c ≠ '/' := by
      intro c hc
      rcases List.mem_append.mp hc with h1 | h1
      · exact hslash c h1
      · rcases List.mem_cons.mp h1 with h2 | h2
        · rw [h2]
          decide
        · exact hsl2 c h2
    have ht : List.takeWhile Char.isDigit ('.' :: ext) = [] := by
      rw [List.takeWhile_cons, if_neg (by decide)]
    have hd : List.dropWhile Char.isDigit ('.' :: ext) = '.' :: ext := by
      rw [List.dropWhile_cons, if_neg (by decide)]
    unfold get_next_filename
    rw [basename_of_no_slash hsl3]
    unfold matchNumberExt
    rw [List.takeWhile_append_of_pos hdig, List.dropWhile_append_of_pos hdig]
    rw [ht, List.append_nil, hd, if_neg hds, if_neg (List.cons_ne_nil '.' ext)]
    have hcond : ('.' :: ext).head? = some '.' ∧ ('.' :: ext).tail ≠ [] ∧
        ('.' :: ext).tail.all (fun d => decide (d ≠ '.')) := by
      refine ⟨rfl, by simpa using hne, ?_⟩
      rw [List.tail_cons, List.all_eq_true]
      intro d hd2
      simpa using hdot d hd2
    rw [if_pos hcond]
    rfl

/-- Witness for c9_next_filename at the concrete input 1.txt. -/
theorem c9_next_filename_witness :
    get_next_filename "1.txt".data = "2.txt".data := by
  have h := (c9_next_filename "1".data "txt".data (by decide) (by decide)).2
    (by decide) (by decide) (by decide)
  have he : ("1".data ++ '.' :: "txt".data) = "1.txt".data := by decide
  rw [he] at h
  rw [h]
  decide

/-! ## C5: specification of find_next_undone_lemma. -/

theorem findUndoneAux_eq_some {l : List ListEntry} {base i : Nat} {lem : Str}
    (h : findUndoneAux l base = some (i, lem)) :
    ∃ j, i = base + j ∧
      (∃ e, l[j]? = some e ∧ e.sentence = none ∧ e.lem = lem) ∧
      ∀ j2, j2 < j → ∀ e2, l[j2]? = some e2 → e2.sentence ≠ none := by
  induction l generalizing base with
  | nil => exact absurd h (by simp [findUndoneAux])
  | cons e es ih =>
    by_cases he : e.sentence = none
    · rw [findUndoneAux, if_pos he] at h
      obtain ⟨h1, h2⟩ : base = i ∧ e.lem = lem := by
        have := Option.some.inj h
        exact ⟨congrArg Prod.fst this, congrArg Prod.snd this⟩
      refine ⟨0, by omega, ⟨e, by simp, he, h2⟩, ?_⟩
      intro j2 hj2
      omega
    · rw [findUndoneAux, if_neg he] at h
      obtain ⟨j, hj, ⟨e2, he2, hs2, hl2⟩, hmin⟩ := ih h
      refine ⟨j + 1, by omega,
        ⟨e2, by rw [List.getElem?_cons_succ]; exact he2, hs2, hl2⟩, ?_⟩
      intro j2 hj2 e3 he3
      cases j2 with
      | zero =>
        rw [List.getElem?_cons_zero] at he3
        rw [← Option.some.inj he3]
        exact he
      | succ k =>
        rw [List.getElem?_cons_succ] at he3
        exact hmin k (by omega) e3 he3

theorem findUndoneAux_eq_none {l : List ListEntry} {base : Nat} :
    findUndoneAux l base = none ↔
      ∀ (j : Nat) (e : ListEntry), l[j]? = some e → e.sentence ≠ none := by
  induction l generalizing base with
  | nil =>
    constructor
    · intro _ j e he
      simp at he
    · intro _
      rfl
  | cons e es ih =>
    by_cases he : e.sentence = none
    · rw [findUndoneAux, if_pos he]
      constructor
      · intro h
        exact absurd h (by simp)
      · intro hall
        exact absurd he (hall 0 e (by simp))
    · rw [findUndoneAux, if_neg he, @ih (base + 1)]
      constructor
      · intro hall j e2 he2
        cases j with
        | zero =>
          rw [List.getElem?_cons_zero] at he2
          rw [← Option.some.inj he2]
          exact he
        | succ k =>
          rw [List.getElem?_cons_succ] at he2
          exact hall k e2 he2
      · intro hall j e2 he2
        exact hall (j + 1) e2 (by rw [List.getElem?_cons_succ]; exact he2)

/-- C5: find_next_undone_lemma clamps skip_count into the interval from 0 to
the list length (clampStart), returns the smallest index at or beyond the
clamped start whose entry has no sentence, and fails (None, the modelled
ValueError) exactly when every entry from the clamped start onward already has
a sentence. -/
theorem c5_find_next_undone_spec (entries : List ListEntry) (skip_count : Int) :
    (∀ i lem, find_next_undone_lemma entries skip_count = some (i, lem) →
      clampStart entries skip_count ≤ i ∧
      (∃ e, entries[i]? = some e ∧ e.sentence = none ∧ e.lem = lem) ∧
      ∀ j, clampStart entries skip_count ≤ j → j < i →
        ∀ e2, entries[j]? = some e2 → e2.sentence ≠ none) ∧
    (find_next_undone_lemma entries skip_count = none ↔
      ∀ (j : Nat) (e : ListEntry), clampStart entries skip_count ≤ j →
        entries[j]? = some e → e.sentence ≠ none) := by
  constructor
  · intro i lem h
    unfold find_next_undone_lemma at h
    obtain ⟨j, hj, ⟨e, he, hs, hl⟩, hmin⟩ := findUndoneAux_eq_some h
    rw [List.getElem?_drop] at he
    refine ⟨by omega, ⟨e, by rw [← hj] at he; exact he, hs, hl⟩, ?_⟩
    intro j2 hle hlt e2 he2
    have hk := hmin (j2 - clampStart entries skip_count) (by omega) e2
    rw [List.getElem?_drop] at hk
    exact hk (by rw [show clampStart entries skip_count +
      (j2 - clampStart entries skip_count) = j2 by omega]; exact he2)
  · unfold find_next_undone_lemma
    rw [findUndoneAux_eq_none]
    constructor
    · intro hall j e hle he
      have := hall (j - clampStart entries skip_count) e
      rw [List.getElem?_drop] at this
      exact this (by rw [show clampStart entries skip_count +
        (j - clampStart entries skip_count) = j by omega]; exact he)
    · intro hall j e he
      rw [List.getElem?_drop] at he
      exact hall (clampStart entries skip_count + j) e (by omega) he

/-- Witness for c5_find_next_undone_spec: on a two-entry list with the first
entry finished and a negative skip count, the scan starts at the clamped
position 0 and returns index 1. -/
theorem c5_find_next_undone_witness :
    clampStart [⟨"a".data, some "S".data⟩, ⟨"b".data, none⟩] (-5) ≤ 1 ∧
    (∃ e, ([⟨"a".data, some "S".data⟩, ⟨"b".data, none⟩] :
        List ListEntry)[1]? = some e ∧ e.sentence = none ∧ e.lem = "b".data) ∧
    ∀ j, clampStart [⟨"a".data, some "S".data⟩, ⟨"b".data, none⟩] (-5) ≤ j →
      j < 1 → ∀ e2, ([⟨"a".data, some "S".data⟩, ⟨"b".data, none⟩] :
        List ListEntry)[j]? = some e2 → e2.sentence ≠ none :=
  (c5_find_next_undone_spec [⟨"a".data, some "S".data⟩, ⟨"b".data, none⟩]
    (-5)).1 1 "b".data (by decide)

/-! ## C7: round trip of parse_list_file and write_list_file. -/

theorem strip_ne_nil_of_mem {l : Str} {c : Char} (hc : c ∈ l)
    (hs : isSpaceCh c = false) : strip l ≠ [] := by
  intro h
  unfold strip at h
  have h2 : List.dropWhile isSpaceCh ((l.dropWhile isSpaceCh).reverse) = [] := by
    have := congrArg List.reverse h
    rwa [List.reverse_reverse, List.reverse_nil] at this
  have h3 : ∀ x ∈ (l.dropWhile isSpaceCh).reverse, isSpaceCh x = true :=
    List.dropWhile_eq_nil_iff.mp h2
  have h4 : ∀ x ∈ l.dropWhile isSpaceCh, isSpaceCh x = true :=
    fun x hx => h3 x (List.mem_reverse.mpr hx)
  have h5 : c ∈ l.takeWhile isSpaceCh ∨ c ∈ l.dropWhile isSpaceCh := by
    rw [← List.mem_append, List.takeWhile_append_dropWhile]
    exact hc
  rcases h5 with h6 | h6
  · rw [List.mem_takeWhile_imp h6] at hs
    exact absurd hs (by decide)
  · rw [h4 c h6] at hs
    exact absurd hs (by decide)

theorem strip_stripped_head {s : Str} (hs : strip s = s) (hne : s ≠ []) :
    ∃ c cs, s = c :: cs ∧ isSpaceCh c = false := by
  match s, hne with
  | c :: cs, _ =>
    refine ⟨c, cs, rfl, ?_⟩
    by_contra hsp
    rw [Bool.not_eq_false] at hsp
    have hlen : (strip (c :: cs)).length ≤ cs.length := by
      unfold strip
      rw [List.dropWhile_cons, if_pos hsp]
      calc (((cs.dropWhile isSpaceCh).reverse.dropWhile isSpaceCh).reverse).length
          = ((cs.dropWhile isSpaceCh).reverse.dropWhile isSpaceCh).length := by
            rw [List.length_reverse]
        _ ≤ (cs.dropWhile isSpaceCh).reverse.length :=
            (List.dropWhile_sublist _).length_le
        _ = (cs.dropWhile isSpaceCh).length := by rw [List.length_reverse]
        _ ≤ cs.length := (List.dropWhile_sublist _).length_le
    rw [hs] at hlen
    simp only [List.length_cons] at hlen
    omega

theorem beforeTab_decomp {line : Str} (h : '\t' ∈ line) :
    line = beforeTab line ++ '\t' :: afterTab line := by
  induction line with
  | nil => exact absurd h (by simp)
  | cons c cs ih =>
    by_cases hc : c = '\t'
    · subst hc
      unfold beforeTab afterTab
      rw [List.takeWhile_cons, List.dropWhile_cons, if_neg (by simp),
        if_neg (by simp)]
      rfl
    · have hmem : '\t' ∈ cs := by
        rcases List.mem_cons.mp h with h1 | h1
        · exact absurd h1.symm hc
        · exact h1
      unfold beforeTab afterTab
      rw [List.takeWhile_cons, List.dropWhile_cons, if_pos (by simpa using hc),
        if_pos (by simpa using hc)]
      have := ih hmem
      conv_lhs => rw [this]
      rfl

theorem tab_not_mem_beforeTab (line : Str) : '\t' ∉ beforeTab line := by
  intro h
  have := List.mem_takeWhile_imp h
  simp at this

/-- Round trip for one well-formed line: parsing then serializing restores the
line, and the line is not skipped by the blank-line filter. -/
theorem parse_serialize_line {line : Str} (h : wellFormedLine line) :
    serializeEntry (parseLine line) = line ∧ strip line ≠ [] := by
  unfold wellFormedLine at h
  by_cases ht : '\t' ∈ line
  · rw [if_pos ht] at h
    obtain ⟨hb, ha, hne⟩ := h
    have hdec := beforeTab_decomp ht
    obtain ⟨c, cs, hcs, hcsp⟩ := strip_stripped_head ha hne
    constructor
    · unfold parseLine
      rw [if_pos ht, hb, ha, if_neg hne]
      unfold serializeEntry
      simp only
      rw [if_neg hne]
      exact hdec.symm
    · refine strip_ne_nil_of_mem (c := c) ?_ hcsp
      rw [hdec, hcs]
      exact List.mem_append.mpr (Or.inr (List.mem_cons.mpr
        (Or.inr (List.mem_cons_self c cs))))
  · rw [if_neg ht] at h
    obtain ⟨hsl, hne⟩ := h
    constructor
    · unfold parseLine
      rw [if_neg ht, hsl]
      rfl
    · rw [hsl]
      exact hne

/-- C7: serializing the result of parsing restores any well-formed input
exactly; in particular entries parsed with sentence None come back as bare
lemma lines. -/
theorem c7_round_trip (lines : List Str) (h : ∀ l ∈ lines, wellFormedLine l) :
    write_list_file (parse_list_file lines) = lines := by
  induction lines with
  | nil => rfl
  | cons l ls ih =>
    have hl := parse_serialize_line (h l (List.mem_cons_self l ls))
    unfold parse_list_file write_list_file
    rw [List.filter_cons, if_pos (by simpa using hl.2), List.map_cons,
      List.map_cons]
    have ihr := ih (fun x hx => h x (List.mem_cons_of_mem l hx))
    unfold parse_list_file write_list_file at ihr
    rw [ihr, hl.1]

/-- Witness for c7_round_trip on a concrete two-line file. -/
theorem c7_round_trip_witness :
    write_list_file (parse_list_file
      ["hello".data, "world\tA greeting".data]) =
      ["hello".data, "world\tA greeting".data] :=
  c7_round_trip ["hello".data, "world\tA greeting".data] (by decide)

/-! ## C10: the deterministic fallback sentence. -/

theorem splitWS_cons (c : Char) (cs : Str) :
    splitWS (c :: cs) =
      if isSpaceCh c then splitWS cs
      else (c :: cs.takeWhile (fun d => !isSpaceCh d)) ::
        splitWS (cs.dropWhile (fun d => !isSpaceCh d)) := by
  rw [splitWS]

/-- A single non-empty whitespace-free word splits to itself. -/
theorem splitWS_single {w : Str} (hne : w ≠ [])
    (hns : ∀ c ∈ w, isSpaceCh c = false) : splitWS w = [w] := by
  match w, hne with
  | c :: cs, _ =>
    rw [splitWS_cons, if_neg (by rw [hns c (List.mem_cons_self c cs)]; simp)]
    have ht : cs.takeWhile (fun d => !isSpaceCh d) = cs :=
      takeWhile_all (fun d hd => by
        rw [hns d (List.mem_cons_of_mem c hd)]
        rfl)
    have hd : cs.dropWhile (fun d => !isSpaceCh d) = [] :=
      dropWhile_all (fun d hd => by
        rw [hns d (List.mem_cons_of_mem c hd)]
        rfl)
    rw [ht, hd, splitWS]

/-- Splitting a word, a space and a remainder peels off the word. -/
theorem splitWS_word_append {w rest : Str} (hne : w ≠ [])
    (hns : ∀ c ∈ w, isSpaceCh c = false) :
    splitWS (w ++ ' ' :: rest) = w :: splitWS rest := by
  match w, hne with
  | c :: cs, _ =>
    rw [List.cons_append, splitWS_cons,
      if_neg (by rw [hns c (List.mem_cons_self c cs)]; simp)]
    have hcs : ∀ d ∈ cs, (fun d => !isSpaceCh d) d = true := fun d hd => by
      simp [hns d (List.mem_cons_of_mem c hd)]
    rw [List.takeWhile_append_of_pos hcs, List.dropWhile_append_of_pos hcs]
    have h1 : List.takeWhile (fun d => !isSpaceCh d) (' ' :: rest) = [] := by
      rw [List.takeWhile_cons, if_neg (by decide)]
    have h2 : List.dropWhile (fun d => !isSpaceCh d) (' ' :: rest) =
        ' ' :: rest := by
      rw [List.dropWhile_cons, if_neg (by decide)]
    rw [h1, h2, List.append_nil, splitWS_cons, if_pos (by decide)]

/-- joinSpace on a list with a non-empty tail. -/
theorem joinSpace_cons {w : Str} {t : List Str} (h : t ≠ []) :
    joinSpace (w :: t) = w ++ ' ' :: joinSpace t := by
  cases t with
  | nil => exact absurd rfl h
  | cons a b => rfl

/-- Splitting inverts joining for non-empty whitespace-free words. -/
theorem splitWS_joinSpace {ws : List Str}
    (h : ∀ w ∈ ws, w ≠ [] ∧ ∀ c ∈ w, isSpaceCh c = false) :
    splitWS (joinSpace ws) = ws := by
  induction ws with
  | nil => rw [joinSpace, splitWS]
  | cons w tail ih =>
    cases tail with
    | nil =>
      rw [joinSpace]
      exact splitWS_single (h w (List.mem_cons_self w [])).1
        (h w (List.mem_cons_self w [])).2
    | cons w2 ws2 =>
      rw [joinSpace_cons (List.cons_ne_nil w2 ws2),
        splitWS_word_append (h w (List.mem_cons_self w _)).1
          (h w (List.mem_cons_self w _)).2,
        ih (fun x hx => h x (List.mem_cons_of_mem w hx))]

/-- Head modification of a word list. -/
def mapHead (f : Str → Str) : List Str → List Str
  | [] => []
  | w :: ws => f w :: ws

/-- Last-element modification of a word list. -/
def mapLast (f : Str → Str) : List Str → List Str
  | [] => []
  | [w] => [f w]
  | w :: w2 :: ws => w :: mapLast f (w2 :: ws)

theorem capFirst_joinSpace {ws : List Str} (hne : ws ≠ [])
    (hh : ∀ w ∈ ws, w ≠ []) :
    capFirst (joinSpace ws) = joinSpace (mapHead capFirst ws) := by
  match ws, hne with
  | w :: tail, _ =>
    match w, hh w (List.mem_cons_self w tail) with
    | c :: cs, _ =>
      match tail with
      | [] => rfl
      | w2 :: ws2 => rfl

theorem mapLast_ne_nil {f : Str → Str} {l : List Str} (h : l ≠ []) :
    mapLast f l ≠ [] := by
  cases l with
  | nil => exact absurd rfl h
  | cons a t =>
    cases t with
    | nil => simp [mapLast]
    | cons b u => simp [mapLast]

theorem mapLast_cons_cons (f : Str → Str) (w w2 : Str) (ws : List Str) :
    mapLast f (w :: w2 :: ws) = w :: mapLast f (w2 :: ws) := rfl

theorem joinSpace_append_last {ws : List Str} (x : Str) (hne : ws ≠ []) :
    joinSpace ws ++ x = joinSpace (mapLast (fun w => w ++ x) ws) := by
  induction ws with
  | nil => exact absurd rfl hne
  | cons w tail ih =>
    cases tail with
    | nil => rfl
    | cons w2 ws2 =>
      rw [joinSpace_cons (List.cons_ne_nil w2 ws2), mapLast_cons_cons,
        joinSpace_cons (mapLast_ne_nil (List.cons_ne_nil w2 ws2)),
        List.append_assoc, List.cons_append,
        ih (List.cons_ne_nil w2 ws2)]

theorem lowerStr_capFirst (w : Str) : lowerStr (capFirst w) = lowerStr w := by
  cases w with
  | nil => rfl
  | cons c cs => simp [capFirst, lowerStr, lowerCh_upperCh]

theorem countP_mapHead {p : Str → Bool} {f : Str → Str}
    (hf : ∀ w, p (f w) = p w) (l : List Str) :
    (mapHead f l).countP p = l.countP p := by
  cases l with
  | nil => rfl
  | cons w ws => simp [mapHead, List.countP_cons, hf w]

theorem countP_mapLast {p : Str → Bool} {f : Str → Str} {l : List Str}
    {w : Str} (hl : l.getLast? = some w) (hpw : p w = false)
    (hpf : p (f w) = false) : (mapLast f l).countP p = l.countP p := by
  induction l with
  | nil => simp at hl
  | cons a t ih =>
    cases t with
    | nil =>
      have ha : a = w := by
        rw [List.getLast?_singleton] at hl
        exact Option.some.inj hl
      subst ha
      simp [mapLast, List.countP_cons, hpw, hpf]
    | cons b u =>
      rw [mapLast_cons_cons, List.countP_cons, List.countP_cons,
        ih (by rw [← List.getLast?_cons_cons (a := a)]; exact hl)]

theorem getLast?_mapHead {f : Str → Str} {l : List Str} (h : 2 ≤ l.length) :
    (mapHead f l).getLast? = l.getLast? := by
  cases l with
  | nil => simp at h
  | cons a t =>
    cases t with
    | nil => simp at h
    | cons b u => rw [mapHead, List.getLast?_cons_cons, List.getLast?_cons_cons]

theorem length_mapHead (f : Str → Str) (l : List Str) :
    (mapHead f l).length = l.length := by
  cases l with
  | nil => rfl
  | cons a t => rfl

theorem forall_mapHead {P : Str → Prop} {f : Str → Str}
    (hf : ∀ w, P w → P (f w)) {l : List Str} (hl : ∀ w ∈ l, P w) :
    ∀ w ∈ mapHead f l, P w := by
  cases l with
  | nil =>
    intro w hw
    simp [mapHead] at hw
  | cons a t =>
    intro w hw
    rw [mapHead] at hw
    rcases List.mem_cons.mp hw with h1 | h1
    · rw [h1]
      exact hf a (hl a (List.mem_cons_self a t))
    · exact hl w (List.mem_cons_of_mem a h1)

theorem forall_mapLast {P : Str → Prop} {f : Str → Str}
    (hf : ∀ w, P w → P (f w)) {l : List Str} (hl : ∀ w ∈ l, P w) :
    ∀ w ∈ mapLast f l, P w := by
  induction l with
  | nil =>
    intro w hw
    simp [mapLast] at hw
  | cons a t ih =>
    intro w hw
    cases t with
    | nil =>
      rw [mapLast] at hw
      rw [List.mem_singleton.mp hw]
      exact hf a (hl a (List.mem_cons_self a []))
    | cons b u =>
      rw [mapLast_cons_cons] at hw
      rcases List.mem_cons.mp hw with h1 | h1
      · rw [h1]
        exact hl a (List.mem_cons_self a (b :: u))
      · exact ih (fun x hx => hl x (List.mem_cons_of_mem a hx)) w h1

theorem capFirst_preserves (w : Str)
    (hw : w ≠ [] ∧ ∀ c ∈ w, isSpaceCh c = false) :
    capFirst w ≠ [] ∧ ∀ c ∈ capFirst w, isSpaceCh c = false := by
  match w, hw with
  | c :: cs, hw =>
    refine ⟨by simp [capFirst], ?_⟩
    intro d hd
    rw [capFirst] at hd
    rcases List.mem_cons.mp hd with h2 | h2
    · rw [h2]
      exact isSpaceCh_upperCh c (hw.2 c (List.mem_cons_self c cs))
    · exact hw.2 d (List.mem_cons_of_mem c h2)

theorem append_dot_preserves (w : Str)
    (hw : w ≠ [] ∧ ∀ c ∈ w, isSpaceCh c = false) :
    w ++ ['.'] ≠ [] ∧ ∀ c ∈ w ++ ['.'], isSpaceCh c = false := by
  refine ⟨by simp, ?_⟩
  intro c hc
  rcases List.mem_append.mp hc with h1 | h1
  · exact hw.2 c h1
  · rw [List.mem_singleton.mp h1]
    decide

theorem countP_range_eq_one {q : Nat → Bool} {n ip : Nat} (hip : ip < n)
    (hq : ∀ i, i < n → q i = decide (i = ip)) :
    (List.range n).countP q = 1 := by
  induction n with
  | zero => omega
  | succ m ih =>
    rw [List.range_succ, List.countP_append]
    by_cases hm : ip < m
    · rw [ih hm (fun i hi => hq i (by omega))]
      have hqm : q m = false := by
        rw [hq m (by omega)]
        simp
        omega
      simp [List.countP_cons, hqm]
    · have hip2 : ip = m := by omega
      have h0 : (List.range m).countP q = 0 := by
        rw [List.countP_eq_zero]
        intro a ha
        have ham : a < m := List.mem_range.mp ha
        rw [hq a (by omega)]
        simp
        omega
      have hqm : q m = true := by
        rw [hq m (by omega)]
        simp [hip2]
      rw [h0]
      simp [List.countP_cons, hqm]

theorem lowerStr_append_dot_ne {x lem : Str} (hl : ∀ c ∈ lem, c ≠ '.') :
    lowerStr (x ++ ['.']) ≠ lowerStr lem := by
  intro h
  have hmem : '.' ∈ lowerStr lem := by
    rw [← h]
    unfold lowerStr
    rw [List.map_append]
    refine List.mem_append.mpr (Or.inr ?_)
    simp [lowerCh]
  obtain ⟨c, hc, he⟩ := List.mem_map.mp hmem
  exact absurd (lowerCh_eq_dot c he) (hl c hc)

/-- The last word of the fallback word list is a filler draw when the insert
position is not the final slot. -/
theorem fallbackWords_getLast? (lem : Str) (wc ip : Nat) (fillers : Nat → Str)
    (hwc : 2 ≤ wc) (hip : ip < wc - 1) :
    (fallbackWords lem wc ip fillers).getLast? = some (fillers (wc - 1)) := by
  rw [List.getLast?_eq_getElem?]
  have hlen : (fallbackWords lem wc ip fillers).length = wc := by
    simp [fallbackWords]
  rw [hlen]
  unfold fallbackWords
  rw [List.getElem?_map, List.getElem?_range (by omega)]
  simp only [Option.map_some']
  rw [if_neg (by omega)]

/-- C10 counterexample: with word_count 1 the random insert position is forced
to 0, the lemma is the final word and absorbs the appended period, so no
whitespace-separated word of the sentence case-folds to the target lemma
(regardless of the rng draws). -/
theorem c10_counterexample :
    fallbackSentence "run".data 1 0 (fun _ => "today".data) = "Run.".data ∧
    (splitWS (fallbackSentence "run".data 1 0 (fun _ => "today".data))).countP
      (fun w => decide (lowerStr w = lowerStr "run".data)) = 0 := by
  have h0 : fallbackSentence "run".data 1 0 (fun _ => "today".data) =
      "Run.".data := rfl
  refine ⟨h0, ?_⟩
  rw [h0, splitWS_single (by decide) (by decide)]
  decide

/-- C10 amended: for a non-empty lemma free of whitespace and periods, a word
count of at least 2, an insert position that is not the final slot, and filler
draws from base_words none of which case-folds to the lemma, the
whitespace-separated words of the fallback sentence contain exactly one word
whose case-folded form is the case-folded lemma (the capitalization of the
first word does not affect the case-insensitive match, but the final word
carries the appended period, which is why the insert position must not be the
last slot and why duplicate filler draws equal to the lemma must be
excluded). -/
theorem c10_fallback_amended (lem : Str) (word_count insert_pos : Nat)
    (fillers : Nat → Str) (hlem_ne : lem ≠ [])
    (hlem_ch : ∀ c ∈ lem, isSpaceCh c = false ∧ c ≠ '.')
    (hwc : 2 ≤ word_count) (hip : insert_pos < word_count - 1)
    (hfill : ∀ i, fillers i ∈ base_words)
    (hnc : ∀ i, lowerStr (fillers i) ≠ lowerStr lem) :
    (splitWS (fallbackSentence lem word_count insert_pos fillers)).countP
      (fun w => decide (lowerStr w = lowerStr lem)) = 1 := by
  have hbw : ∀ w ∈ base_words, w ≠ [] ∧ ∀ c ∈ w, isSpaceCh c = false := by
    decide
  have hfw_props : ∀ w ∈ fallbackWords lem word_count insert_pos fillers,
      w ≠ [] ∧ ∀ c ∈ w, isSpaceCh c = false := by
    intro w hw
    obtain ⟨i, _, hiw⟩ := List.mem_map.mp hw
    by_cases hi : i = insert_pos
    · rw [← hiw, if_pos hi]
      exact ⟨hlem_ne, fun c hc => (hlem_ch c hc).1⟩
    · rw [← hiw, if_neg hi]
      exact hbw (fillers i) (hfill i)
  have hfw_len : (fallbackWords lem word_count insert_pos fillers).length =
      word_count := by
    simp [fallbackWords]
  have hfw_ne : fallbackWords lem word_count insert_pos fillers ≠ [] := by
    intro h
    rw [h] at hfw_len
    simp at hfw_len
    omega
  have hmh_props : ∀ w ∈ mapHead capFirst
      (fallbackWords lem word_count insert_pos fillers),
      w ≠ [] ∧ ∀ c ∈ w, isSpaceCh c = false :=
    forall_mapHead capFirst_preserves hfw_props
  have hmh_ne : mapHead capFirst
      (fallbackWords lem word_count insert_pos fillers) ≠ [] := by
    match hfw : fallbackWords lem word_count insert_pos fillers, hfw_ne with
    | a :: t, _ => simp [mapHead]
  have hml_props : ∀ w ∈ mapLast (fun w => w ++ ['.'])
      (mapHead capFirst (fallbackWords lem word_count insert_pos fillers)),
      w ≠ [] ∧ ∀ c ∈ w, isSpaceCh c = false :=
    forall_mapLast append_dot_preserves hmh_props
  have hjoin : fallbackSentence lem word_count insert_pos fillers =
      joinSpace (mapLast (fun w => w ++ ['.'])
        (mapHead capFirst (fallbackWords lem word_count insert_pos fillers))) := by
    unfold fallbackSentence
    rw [capFirst_joinSpace hfw_ne (fun w hw => (hfw_props w hw).1),
      joinSpace_append_last ['.'] hmh_ne]
  rw [hjoin, splitWS_joinSpace hml_props]
  have hlast : (mapHead capFirst
      (fallbackWords lem word_count insert_pos fillers)).getLast? =
      some (fillers (word_count - 1)) := by
    rw [getLast?_mapHead (by rw [hfw_len]; omega)]
    exact fallbackWords_getLast? lem word_count insert_pos fillers hwc hip
  have hp1 : (fun w => decide (lowerStr w = lowerStr lem))
      (fillers (word_count - 1)) = false := by
    simp only [decide_eq_false_iff_not]
    exact hnc (word_count - 1)
  have hp2 : (fun w => decide (lowerStr w = lowerStr lem))
      (fillers (word_count - 1) ++ ['.']) = false := by
    simp only [decide_eq_false_iff_not]
    exact lowerStr_append_dot_ne (fun c hc => (hlem_ch c hc).2)
  rw [countP_mapLast hlast hp1 hp2]
  rw [countP_mapHead (fun w => by simp only [lowerStr_capFirst])]
  unfold fallbackWords
  rw [List.countP_map]
  refine @countP_range_eq_one _ _ insert_pos (by omega) ?_
  intro i hi
  by_cases h : i = insert_pos
  · subst h
    simp
  · simp only [Function.comp_apply, if_neg h]
    rw [decide_eq_false (hnc i), Eq.comm, decide_eq_false (by omega)]

/-- Witness for c10_fallback_amended: lemma run, three words, insert position
1, all fillers today. -/
theorem c10_fallback_amended_witness :
    (splitWS (fallbackSentence "run".data 3 1 (fun _ => "today".data))).countP
      (fun w => decide (lowerStr w = lowerStr "run".data)) = 1 := by
  have h1 : "today".data ∈ base_words := by decide
  have h2 : lowerStr "today".data ≠ lowerStr "run".data := by decide
  exact c10_fallback_amended "run".data 3 1 (fun _ => "today".data) (by decide)
    (by decide) (by omega) (by omega) (fun _ => h1) (fun _ => h2)

/-! ## Specifications of the reorder-engine building blocks. -/

theorem firstIdxAux_some {key : Str} :
    ∀ {l : List ListEntry} {o : Nat}, firstIdxAux key l = some o →
      ∃ e, l[o]? = some e ∧ lowerStr e.lem = key := by
  intro l
  induction l with
  | nil =>
    intro o h
    simp [firstIdxAux] at h
  | cons e es ih =>
    intro o h
    by_cases hk : lowerStr e.lem = key
    · rw [firstIdxAux, if_pos hk] at h
      have ho : 0 = o := Option.some.inj h
      subst ho
      exact ⟨e, by simp, hk⟩
    · rw [firstIdxAux, if_neg hk] at h
      match hfi : firstIdxAux key es with
      | none =>
        rw [hfi] at h
        simp at h
      | some o2 =>
        rw [hfi] at h
        simp only [Option.map_some'] at h
        obtain ⟨e2, he2, hk2⟩ := ih hfi
        refine ⟨e2, ?_, hk2⟩
        rw [← Option.some.inj h]
        simpa using he2

theorem firstIdxAux_isSome_of_hasKey {entries : List ListEntry} {key : Str}
    (h : hasKey entries key = true) :
    ∃ o, firstIdxAux key entries = some o := by
  unfold hasKey at h
  induction entries with
  | nil => simp at h
  | cons e es ih =>
    by_cases hk : lowerStr e.lem = key
    · exact ⟨0, by rw [firstIdxAux, if_pos hk]⟩
    · rw [List.any_cons] at h
      have h2 : es.any (fun e => decide (lowerStr e.lem = key)) = true := by
        rcases Bool.or_eq_true_iff.mp h with h1 | h1
        · exact absurd (of_decide_eq_true h1) hk
        · exact h1
      obtain ⟨o, ho⟩ := ih h2
      exact ⟨o + 1, by rw [firstIdxAux, if_neg hk, ho]; rfl⟩

theorem partition_reorders_spec {entries : List ListEntry} {ck : Str}
    {idx : Nat} :
    ∀ {ul : List Str} {l : Str},
      l ∈ (partitionUnknowns entries ck idx ul).1 →
      l ∈ ul ∧ l ≠ ck ∧ ∃ o, firstIndexOf entries l = some o ∧ idx < o := by
  intro ul
  induction ul with
  | nil =>
    intro l h
    simp [partitionUnknowns] at h
  | cons a ls ih =>
    intro l h
    rw [partitionUnknowns] at h
    by_cases h1 : a = ck
    · rw [if_pos h1] at h
      obtain ⟨hm, hr⟩ := ih h
      exact ⟨List.mem_cons_of_mem a hm, hr.1, hr.2⟩
    · rw [if_neg h1] at h
      by_cases h2 : hasKey entries a
      · rw [if_pos h2] at h
        match hfi : firstIndexOf entries a with
        | some o =>
          rw [hfi] at h
          simp only [] at h
          by_cases h3 : idx < o
          · rw [if_pos h3] at h
            rcases List.mem_cons.mp h with h4 | h4
            · subst h4
              exact ⟨List.mem_cons_self l ls, h1, o, hfi, h3⟩
            · obtain ⟨hm, hr⟩ := ih h4
              exact ⟨List.mem_cons_of_mem a hm, hr.1, hr.2⟩
          · rw [if_neg h3] at h
            obtain ⟨hm, hr⟩ := ih h
            exact ⟨List.mem_cons_of_mem a hm, hr.1, hr.2⟩
        | none =>
          rw [hfi] at h
          simp only [] at h
          obtain ⟨hm, hr⟩ := ih h
          exact ⟨List.mem_cons_of_mem a hm, hr.1, hr.2⟩
      · rw [if_neg h2] at h
        obtain ⟨hm, hr⟩ := ih h
        exact ⟨List.mem_cons_of_mem a hm, hr.1, hr.2⟩

theorem partition_oob_spec {entries : List ListEntry} {ck : Str} {idx : Nat} :
    ∀ {ul : List Str} {l : Str},
      l ∈ (partitionUnknowns entries ck idx ul).2 →
      l ∈ ul ∧ l ≠ ck ∧ hasKey entries l = false := by
  intro ul
  induction ul with
  | nil =>
    intro l h
    simp [partitionUnknowns] at h
  | cons a ls ih =>
    intro l h
    rw [partitionUnknowns] at h
    by_cases h1 : a = ck
    · rw [if_pos h1] at h
      obtain ⟨hm, hr⟩ := ih h
      exact ⟨List.mem_cons_of_mem a hm, hr.1, hr.2⟩
    · rw [if_neg h1] at h
      by_cases h2 : hasKey entries a
      · rw [if_pos h2] at h
        match hfi : firstIndexOf entries a with
        | some o =>
          rw [hfi] at h
          simp only [] at h
          by_cases h3 : idx < o
          · rw [if_pos h3] at h
            obtain ⟨hm, hr⟩ := ih h
            exact ⟨List.mem_cons_of_mem a hm, hr.1, hr.2⟩
          · rw [if_neg h3] at h
            obtain ⟨hm, hr⟩ := ih h
            exact ⟨List.mem_cons_of_mem a hm, hr.1, hr.2⟩
        | none =>
          rw [hfi] at h
          simp only [] at h
          obtain ⟨hm, hr⟩ := ih h
          exact ⟨List.mem_cons_of_mem a hm, hr.1, hr.2⟩
      · rw [if_neg h2] at h
        rcases List.mem_cons.mp h with h4 | h4
        · subst h4
          exact ⟨List.mem_cons_self l ls, h1, Bool.not_eq_true _ ▸ (by simpa using h2)⟩
        · obtain ⟨hm, hr⟩ := ih h4
          exact ⟨List.mem_cons_of_mem a hm, hr.1, hr.2⟩

theorem partition_complete {entries : List ListEntry} {ck : Str} {idx : Nat}
    {l : Str}
    (hgt : ∀ o, firstIndexOf entries l = some o → idx < o) :
    ∀ {ul : List Str}, l ∈ ul → l ≠ ck →
      l ∈ (partitionUnknowns entries ck idx ul).1 ∨
      l ∈ (partitionUnknowns entries ck idx ul).2 := by
  intro ul
  induction ul with
  | nil =>
    intro h
    simp at h
  | cons a ls ih =>
    intro hmem hck
    rw [partitionUnknowns]
    rcases List.mem_cons.mp hmem with h4 | h4
    · subst h4
      rw [if_neg hck]
      by_cases h2 : hasKey entries l
      · rw [if_pos h2]
        obtain ⟨o, ho⟩ := firstIdxAux_isSome_of_hasKey h2
        rw [show firstIndexOf entries l = some o from ho]
        simp only []
        rw [if_pos (hgt o ho)]
        exact Or.inl (List.mem_cons_self l _)
      · rw [if_neg h2]
        exact Or.inr (List.mem_cons_self l _)
    · have hrec := ih h4 hck
      by_cases h1 : a = ck
      · rw [if_pos h1]
        exact hrec
      · rw [if_neg h1]
        by_cases h2 : hasKey entries a
        · rw [if_pos h2]
          match hfi : firstIndexOf entries a with
          | some o =>
            simp only []
            by_cases h3 : idx < o
            · rw [if_pos h3]
              rcases hrec with h5 | h5
              · exact Or.inl (List.mem_cons_of_mem a h5)
              · exact Or.inr h5
            · rw [if_neg h3]
              exact hrec
          | none => exact hrec
        · rw [if_neg h2]
          rcases hrec with h5 | h5
          · exact Or.inl h5
          · exact Or.inr (List.mem_cons_of_mem a h5)

theorem toInsert_cons_sublist (entries : List ListEntry) (rs oob : List Str)
    (a : Str) (ls : List Str) :
    List.Sublist (toInsert entries rs oob ls)
      (toInsert entries rs oob (a :: ls)) := by
  rw [toInsert]
  split
  · split
    · split
      · exact List.sublist_cons_self _ _
      · exact List.Sublist.refl _
    · exact List.Sublist.refl _
  · split
    · exact List.sublist_cons_self _ _
    · exact List.Sublist.refl _

theorem toInsert_mem_spec {entries : List ListEntry} {rs oob : List Str} :
    ∀ {ul : List Str} {x : ListEntry}, x ∈ toInsert entries rs oob ul →
      (∃ l ∈ rs, lowerStr x.lem = l) ∨ (∃ l ∈ oob, x = ⟨l, none⟩) := by
  intro ul
  induction ul with
  | nil =>
    intro x h
    simp [toInsert] at h
  | cons a ls ih =>
    intro x h
    rw [toInsert] at h
    by_cases h1 : a ∈ rs
    · rw [if_pos h1] at h
      match hfi : firstIndexOf entries a with
      | some o =>
        rw [hfi] at h
        simp only [] at h
        match hge : entries[o]? with
        | some e =>
          rw [hge] at h
          simp only [] at h
          rcases List.mem_cons.mp h with h2 | h2
          · obtain ⟨e2, he2, hk2⟩ := firstIdxAux_some hfi
            have hee : e = e2 := by
              rw [hge] at he2
              exact Option.some.inj he2
            refine Or.inl ⟨a, h1, ?_⟩
            rw [h2, hee]
            exact hk2
          · exact ih h2
        | none =>
          rw [hge] at h
          simp only [] at h
          exact ih h
      | none =>
        rw [hfi] at h
        simp only [] at h
        exact ih h
    · rw [if_neg h1] at h
      by_cases h2 : a ∈ oob
      · rw [if_pos h2] at h
        rcases List.mem_cons.mp h with h3 | h3
        · exact Or.inr ⟨a, h2, h3⟩
        · exact ih h3
      · rw [if_neg h2] at h
        exact ih h

theorem toInsert_mem_of_reorder {entries : List ListEntry} {rs oob : List Str}
    {l : Str} (hrs : l ∈ rs)
    (hfind : ∃ o, firstIndexOf entries l = some o) :
    ∀ {ul : List Str}, l ∈ ul →
      ∃ x ∈ toInsert entries rs oob ul, lowerStr x.lem = l := by
  intro ul
  induction ul with
  | nil =>
    intro h
    simp at h
  | cons a ls ih =>
    intro hmem
    rcases List.mem_cons.mp hmem with h4 | h4
    · subst h4
      obtain ⟨o, ho⟩ := hfind
      obtain ⟨e, hge, hke⟩ := firstIdxAux_some ho
      rw [toInsert, if_pos hrs, show firstIndexOf entries l = some o from ho]
      simp only []
      rw [hge]
      exact ⟨⟨e.lem, e.sentence⟩, List.mem_cons_self _ _, hke⟩
    · obtain ⟨x, hx, hk⟩ := ih h4
      exact ⟨x, (toInsert_cons_sublist entries rs oob a ls).subset hx, hk⟩

theorem toInsert_mem_of_oob {entries : List ListEntry} {rs oob : List Str}
    {l : Str} (hno : l ∉ rs) (hoob : l ∈ oob) :
    ∀ {ul : List Str}, l ∈ ul →
      (⟨l, none⟩ : ListEntry) ∈ toInsert entries rs oob ul := by
  intro ul
  induction ul with
  | nil =>
    intro h
    simp at h
  | cons a ls ih =>
    intro hmem
    rcases List.mem_cons.mp hmem with h4 | h4
    · subst h4
      rw [toInsert, if_neg hno, if_pos hoob]
      exact List.mem_cons_self _ _
    · exact (toInsert_cons_sublist entries rs oob a ls).subset (ih h4)

/-! ## C3: the scorer does not exclude the target from the novel set; the
reorder engine does. -/

/-- C3 counterexample: for target run, one candidate whose lemma sequence is
exactly run, and an empty known set, the scorer returns a novel set that
contains the case-folded target (the target is not in the known set, and the
claim says the target key is always excluded). -/
theorem c3_counterexample :
    choose_best_sentence "run".data
        [⟨"Run".data, "Run".data, ["Run".data], ["run".data]⟩] [] =
      some ⟨⟨"Run".data, "Run".data, ["Run".data], ["run".data]⟩, 1, 1,
        ["run".data]⟩ ∧
    lowerStr "run".data ∈ ["run".data] ∧
    lowerStr "run".data ∉ ([] : List Str) := by
  refine ⟨by decide, by decide, by decide⟩

/-- C3 amended: the novel set computed by choose_best_sentence may contain the
case-folded target; the exclusion instead happens inside
apply_sentence_and_reorder, whose partition step skips every unknown equal to
the current entry case-folded lemma, so the target key never appears among
the relocations or the wholly-new insertions, and no entry of the insertion
block carries the target key. -/
theorem c3_reorder_excludes_target (entries : List ListEntry)
    (current_index : Nat) (chosen : LemmatizedSentence)
    (unknown_lemmas : List Str) (cur : ListEntry)
    (hcur : entries[current_index]? = some cur)
    (hlow : ∀ l ∈ unknown_lemmas, lowerStr l = l) :
    lowerStr cur.lem ∉
      (apply_sentence_and_reorder entries current_index chosen
        unknown_lemmas).2.reorders ∧
    lowerStr cur.lem ∉
      (apply_sentence_and_reorder entries current_index chosen
        unknown_lemmas).2.out_of_bound ∧
    ∀ x ∈ toInsert entries
        (partitionUnknowns entries (lowerStr cur.lem) current_index
          unknown_lemmas).1
        (partitionUnknowns entries (lowerStr cur.lem) current_index
          unknown_lemmas).2 unknown_lemmas,
      lowerStr x.lem ≠ lowerStr cur.lem := by
  have hkey : ∀ x ∈ toInsert entries
      (partitionUnknowns entries (lowerStr cur.lem) current_index
        unknown_lemmas).1
      (partitionUnknowns entries (lowerStr cur.lem) current_index
        unknown_lemmas).2 unknown_lemmas,
      lowerStr x.lem ≠ lowerStr cur.lem := by
    intro x hx
    rcases toInsert_mem_spec hx with ⟨l, hl, hk⟩ | ⟨l, hl, hk⟩
    · rw [hk]
      exact (partition_reorders_spec hl).2.1
    · have hspec := partition_oob_spec hl
      rw [hk]
      simp only []
      rw [hlow l hspec.1]
      exact hspec.2.1
  unfold apply_sentence_and_reorder
  rw [hcur]
  simp only []
  by_cases hu : unknown_lemmas = []
  · rw [if_pos hu]
    refine ⟨by simp, by simp, hkey⟩
  · rw [if_neg hu]
    refine ⟨?_, ?_, hkey⟩
    · intro hmem
      exact absurd rfl (partition_reorders_spec hmem).2.1
    · intro hmem
      exact absurd rfl (partition_oob_spec hmem).2.1

/-- Witness for c3_reorder_excludes_target on the one-entry list run with a
novel set containing the target key itself. -/
theorem c3_reorder_excludes_target_witness :
    lowerStr "run".data ∉
      (apply_sentence_and_reorder [⟨"run".data, none⟩] 0
        ⟨"Run".data, "Run".data, ["Run".data], ["run".data]⟩
        ["run".data]).2.reorders ∧
    lowerStr "run".data ∉
      (apply_sentence_and_reorder [⟨"run".data, none⟩] 0
        ⟨"Run".data, "Run".data, ["Run".data], ["run".data]⟩
        ["run".data]).2.out_of_bound ∧
    ∀ x ∈ toInsert [⟨"run".data, none⟩]
        (partitionUnknowns [⟨"run".data, none⟩]
          (lowerStr ((⟨"run".data, none⟩ : ListEntry)).lem) 0 ["run".data]).1
        (partitionUnknowns [⟨"run".data, none⟩]
          (lowerStr ((⟨"run".data, none⟩ : ListEntry)).lem) 0 ["run".data]).2
        ["run".data],
      lowerStr x.lem ≠ lowerStr ((⟨"run".data, none⟩ : ListEntry)).lem :=
  c3_reorder_excludes_target [⟨"run".data, none⟩] 0
    ⟨"Run".data, "Run".data, ["Run".data], ["run".data]⟩ ["run".data]
    ⟨"run".data, none⟩ (by decide) (by decide)

/-! ## C4: the selection of choose_best_sentence. -/

theorem lexLt_irrefl : ∀ l : Str, lexLt l l = false := by
  intro l
  induction l with
  | nil => rfl
  | cons a as ih => simp [lexLt, ih]

theorem lexLt_trans : ∀ {x y z : Str}, lexLt x y = true → lexLt y z = true →
    lexLt x z = true := by
  intro x
  induction x with
  | nil =>
    intro y z hxy hyz
    match y, hxy with
    | b :: bs, _ =>
      match z, hyz with
      | c :: cs, _ => rfl
  | cons a as ih =>
    intro y z hxy hyz
    match y, hxy with
    | b :: bs, hxy =>
      match z, hyz with
      | c :: cs, hyz =>
        rw [lexLt] at hxy hyz ⊢
        by_cases hab : a < b
        · by_cases hbc : b < c
          · rw [if_pos (lt_trans hab hbc)]
          · rw [if_neg hbc] at hyz
            by_cases hcb : c < b
            · rw [if_pos hcb] at hyz
              exact absurd hyz (by decide)
            · have hbc2 : b ≤ c := le_of_not_lt hcb
              rw [if_pos (lt_of_lt_of_le hab hbc2)]
        · rw [if_neg hab] at hxy
          by_cases hba : b < a
          · rw [if_pos hba] at hxy
            exact absurd hxy (by decide)
          · rw [if_neg hba] at hxy
            have hab2 : a = b := le_antisymm (le_of_not_lt hba) (le_of_not_lt hab)
            subst hab2
            by_cases hac : a < c
            · rw [if_pos hac]
            · rw [if_neg hac] at hyz ⊢
              by_cases hca : c < a
              · rw [if_pos hca] at hyz
                exact absurd hyz (by decide)
              · rw [if_neg hca] at hyz ⊢
                exact ih hxy hyz

theorem lexLt_total : ∀ x y : Str, x = y ∨ lexLt x y = true ∨
    lexLt y x = true := by
  intro x
  induction x with
  | nil =>
    intro y
    cases y with
    | nil => exact Or.inl rfl
    | cons b bs => exact Or.inr (Or.inl rfl)
  | cons a as ih =>
    intro y
    cases y with
    | nil => exact Or.inr (Or.inr rfl)
    | cons b bs =>
      by_cases hab : a < b
      · refine Or.inr (Or.inl ?_)
        rw [lexLt, if_pos hab]
      · by_cases hba : b < a
        · refine Or.inr (Or.inr ?_)
          rw [lexLt, if_pos hba]
        · have hab2 : a = b := le_antisymm (le_of_not_lt hba) (le_of_not_lt hab)
          subst hab2
          rcases ih bs with h | h | h
          · exact Or.inl (by rw [h])
          · exact Or.inr (Or.inl (by rw [lexLt, if_neg hab, if_neg hab]; exact h))
          · exact Or.inr (Or.inr (by rw [lexLt, if_neg hab, if_neg hab]; exact h))

theorem lexLt_ne {x y : Str} (h : lexLt x y = true) : x ≠ y := by
  intro he
  subst he
  rw [lexLt_irrefl x] at h
  exact absurd h (by decide)

theorem mem_insertSorted (x a : Str) :
    ∀ l : List Str, x ∈ insertSorted a l ↔ x = a ∨ x ∈ l := by
  intro l
  induction l with
  | nil => simp [insertSorted]
  | cons y ys ih =>
    rw [insertSorted]
    by_cases h1 : lexLt a y
    · rw [if_pos h1]
      simp only [List.mem_cons]
      try tauto
    · rw [if_neg h1]
      by_cases h2 : a = y
      · rw [if_pos h2]
        subst h2
        simp only [List.mem_cons]
        try tauto
      · rw [if_neg h2]
        simp only [List.mem_cons, ih]
        try tauto

theorem pairwise_insertSorted (a : Str) :
    ∀ {l : List Str}, l.Pairwise (fun u v => lexLt u v = true) →
      (insertSorted a l).Pairwise (fun u v => lexLt u v = true) := by
  intro l
  induction l with
  | nil =>
    intro _
    simp [insertSorted]
  | cons y ys ih =>
    intro h
    obtain ⟨hy, hys⟩ := List.pairwise_cons.mp h
    rw [insertSorted]
    by_cases h1 : lexLt a y
    · rw [if_pos h1]
      refine List.pairwise_cons.mpr ⟨?_, h⟩
      intro b hb
      rcases List.mem_cons.mp hb with h2 | h2
      · rw [h2]
        exact h1
      · exact lexLt_trans h1 (hy b h2)
    · rw [if_neg h1]
      by_cases h2 : a = y
      · rw [if_pos h2]
        exact h
      · rw [if_neg h2]
        refine List.pairwise_cons.mpr ⟨?_, ih hys⟩
        intro b hb
        rcases (mem_insertSorted b a ys).mp hb with h3 | h3
        · subst h3
          rcases lexLt_total b y with h4 | h4 | h4
          · exact absurd h4 h2
          · exact absurd h4 h1
          · exact h4
        · exact hy b h3

theorem sortDedup_pairwise (l : List Str) :
    (sortDedup l).Pairwise (fun u v => lexLt u v = true) := by
  induction l with
  | nil => simp [sortDedup]
  | cons a as ih => exact pairwise_insertSorted a ih

theorem mem_sortDedup (x : Str) (l : List Str) :
    x ∈ sortDedup l ↔ x ∈ l := by
  induction l with
  | nil => simp [sortDedup]
  | cons a as ih =>
    show x ∈ insertSorted a (sortDedup as) ↔ _
    rw [mem_insertSorted, ih]
    simp [List.mem_cons]

theorem sortDedup_nodup (l : List Str) : (sortDedup l).Nodup :=
  (sortDedup_pairwise l).imp (fun h => lexLt_ne h)

/-- The length of sorted(set(l)) is the number of distinct elements of l. -/
theorem sortDedup_length (l : List Str) :
    (sortDedup l).length = l.dedup.length := by
  have hp : (sortDedup l).Perm l.dedup := by
    rw [List.perm_ext_iff_of_nodup (sortDedup_nodup l) l.nodup_dedup]
    intro a
    rw [mem_sortDedup, List.mem_dedup]
  exact hp.length_eq

/-- The propositional form of the candidate sort key comparison. -/
def keyLt (a b : ScoredCand) : Prop :=
  a.unknown_count < b.unknown_count ∨
    (a.unknown_count = b.unknown_count ∧ a.token_count < b.token_count)

theorem keyLtB_eq_true_iff {a b : ScoredCand} :
    keyLtB a b = true ↔ keyLt a b := by
  simp [keyLtB, keyLt, Bool.or_eq_true, Bool.and_eq_true, decide_eq_true_eq]

theorem keyLtB_eq_false_iff {a b : ScoredCand} :
    keyLtB a b = false ↔ ¬ keyLt a b := by
  constructor
  · intro h hk
    have h2 := keyLtB_eq_true_iff.mpr hk
    rw [h2] at h
    exact absurd h (by decide)
  · intro h
    cases hb : keyLtB a b with
    | false => rfl
    | true => exact absurd (keyLtB_eq_true_iff.mp hb) h

/-- The left fold selectFrom returns the leftmost key-minimal element of the
list headed by its first argument: nothing in the list is strictly smaller,
and everything strictly before the returned element is strictly larger. -/
theorem selectFrom_spec (best : ScoredCand) (cs : List ScoredCand) :
    (∀ c ∈ best :: cs, ¬ keyLt c (selectFrom best cs)) ∧
    ∃ pre post, best :: cs = pre ++ (selectFrom best cs) :: post ∧
      ∀ c ∈ pre, keyLt (selectFrom best cs) c := by
  induction cs generalizing best with
  | nil =>
    constructor
    · intro c hc
      have hc2 := List.mem_singleton.mp hc
      subst hc2
      rw [selectFrom]
      simp only [keyLt]
      omega
    · refine ⟨[], [], ?_, by simp⟩
      rw [selectFrom]
      rfl
  | cons c2 cs2 ih =>
    by_cases h : keyLtB c2 best = true
    · have hlt : keyLt c2 best := keyLtB_eq_true_iff.mp h
      obtain ⟨hmin, pre, post, hdec, hpre⟩ := ih c2
      have hsel : selectFrom best (c2 :: cs2) = selectFrom c2 cs2 := by
        rw [selectFrom, if_pos h]
      rw [hsel]
      constructor
      · intro c hc
        rcases List.mem_cons.mp hc with h1 | h1
        · subst h1
          have h2 := hmin c2 (List.mem_cons_self c2 cs2)
          simp only [keyLt] at h2 hlt ⊢
          omega
        · exact hmin c h1
      · refine ⟨best :: pre, post, ?_, ?_⟩
        · rw [List.cons_append, ← hdec]
        · intro c hc
          rcases List.mem_cons.mp hc with h1 | h1
          · subst h1
            have h2 := hmin c2 (List.mem_cons_self c2 cs2)
            simp only [keyLt] at h2 hlt ⊢
            omega
          · exact hpre c h1
    · have hnlt : ¬ keyLt c2 best :=
        keyLtB_eq_false_iff.mp (Bool.eq_false_iff.mpr h)
      obtain ⟨hmin, pre, post, hdec, hpre⟩ := ih best
      have hsel : selectFrom best (c2 :: cs2) = selectFrom best cs2 := by
        rw [selectFrom, if_neg h]
      rw [hsel]
      constructor
      · intro c hc
        rcases List.mem_cons.mp hc with h1 | h1
        · subst h1
          exact hmin c (List.mem_cons_self c cs2)
        · rcases List.mem_cons.mp h1 with h2 | h2
          · subst h2
            have h3 := hmin best (List.mem_cons_self best cs2)
            simp only [keyLt] at h3 hnlt ⊢
            omega
          · exact hmin c (List.mem_cons_of_mem best h2)
      · cases pre with
        | nil =>
          have hr : best = selectFrom best cs2 := by
            have h5 := hdec
            simp only [List.nil_append] at h5
            exact (List.cons.inj h5).1
          refine ⟨[], c2 :: cs2, ?_, by simp⟩
          simp only [List.nil_append]
          rw [← hr]
        | cons b pre2 =>
          have hb : b = best := by
            have h5 := hdec
            rw [List.cons_append] at h5
            exact ((List.cons.inj h5).1).symm
          have hcs : cs2 = pre2 ++ selectFrom best cs2 :: post := by
            have h5 := hdec
            rw [List.cons_append] at h5
            exact (List.cons.inj h5).2
          have hrb : keyLt (selectFrom best cs2) best := by
            have h6 := hpre b (List.mem_cons_self b pre2)
            rw [hb] at h6
            exact h6
          refine ⟨best :: c2 :: pre2, post, ?_, ?_⟩
          · rw [List.cons_append, List.cons_append, ← hcs]
          · intro c hc
            rcases List.mem_cons.mp hc with h1 | h1
            · subst h1
              exact hrb
            · rcases List.mem_cons.mp h1 with h2 | h2
              · subst h2
                simp only [keyLt] at hrb hnlt ⊢
                omega
              · exact hpre c (List.mem_cons_of_mem b h2)

/-- Every scored candidate records its sentence, the distinct-novel-lemma
count, the token count and the sorted novel list. -/
theorem scoreCandidates_mem_spec {target : Str}
    {lemmatized : List LemmatizedSentence} {prevKeys : List Str}
    {sc : ScoredCand}
    (h : sc ∈ scoreCandidates target lemmatized prevKeys) :
    sc.ls ∈ lemmatized ∧ target ∈ lemmasLower sc.ls ∧
    sc.unknown_count = ((lemmasLower sc.ls).filter
      (fun l => decide (l ∉ prevKeys))).dedup.length ∧
    sc.token_count = sc.ls.tokens.length ∧
    sc.unknown_list = unknownOf sc.ls prevKeys := by
  obtain ⟨ls, hls, hcond⟩ := List.mem_filterMap.mp h
  by_cases hc : target ∈ lemmasLower ls
  · rw [if_pos hc] at hcond
    have he := Option.some.inj hcond
    subst he
    refine ⟨hls, hc, ?_, rfl, rfl⟩
    show (unknownOf ls prevKeys).length = _
    unfold unknownOf
    exact sortDedup_length _
  · rw [if_neg hc] at hcond
    exact absurd hcond (by simp)

/-- C4: when at least one candidate case-folds to contain the target lemma,
choose_best_sentence returns a scored candidate that contains the case-folded
target among its case-folded non-empty lemmas, whose recorded key is the pair
(number of distinct case-folded lemmas outside the known set, number of
tokens), that is minimal for the lexicographic key order among all qualifying
candidates, and that is the first candidate attaining the minimum in input
order (every earlier qualifying candidate has a strictly larger key) -- the
behaviour of a stable sort by that composite key. -/
theorem c4_choose_best_spec (target_lemma : Str)
    (lemmatized : List LemmatizedSentence) (prev_lemmas : List Str)
    (hq : ∃ ls ∈ lemmatized, lowerStr target_lemma ∈ lemmasLower ls) :
    ∃ sc, choose_best_sentence target_lemma lemmatized prev_lemmas = some sc ∧
      lowerStr target_lemma ∈ lemmasLower sc.ls ∧
      sc.unknown_count = ((lemmasLower sc.ls).filter
        (fun l => decide (l ∉ prev_lemmas.map lowerStr))).dedup.length ∧
      sc.token_count = sc.ls.tokens.length ∧
      (∀ c ∈ scoreCandidates (lowerStr target_lemma) lemmatized
        (prev_lemmas.map lowerStr), ¬ keyLt c sc) ∧
      ∃ pre post, scoreCandidates (lowerStr target_lemma) lemmatized
          (prev_lemmas.map lowerStr) = pre ++ sc :: post ∧
        ∀ c ∈ pre, keyLt sc c := by
  obtain ⟨ls, hls, hmem⟩ := hq
  have hne : scoreCandidates (lowerStr target_lemma) lemmatized
      (prev_lemmas.map lowerStr) ≠ [] := by
    intro hnil
    have : (⟨ls, (unknownOf ls (prev_lemmas.map lowerStr)).length,
        ls.tokens.length, unknownOf ls (prev_lemmas.map lowerStr)⟩ :
        ScoredCand) ∈ scoreCandidates (lowerStr target_lemma) lemmatized
        (prev_lemmas.map lowerStr) :=
      List.mem_filterMap.mpr ⟨ls, hls, by rw [if_pos hmem]⟩
    rw [hnil] at this
    simp at this
  match hQ : scoreCandidates (lowerStr target_lemma) lemmatized
      (prev_lemmas.map lowerStr), hne with
  | c :: cs, _ =>
    obtain ⟨hmin, pre, post, hdec, hpre⟩ := selectFrom_spec c cs
    have hin : selectFrom c cs ∈ c :: cs := by
      rw [hdec]
      exact List.mem_append.mpr (Or.inr (List.mem_cons_self _ _))
    have hspec := @scoreCandidates_mem_spec (lowerStr target_lemma)
      lemmatized (prev_lemmas.map lowerStr) _ (by rw [hQ]; exact hin)
    refine ⟨selectFrom c cs, ?_, hspec.2.1, hspec.2.2.1, hspec.2.2.2.1,
      hmin, pre, post, hdec, hpre⟩
    unfold choose_best_sentence
    rw [hQ]

/-- Witness for c4_choose_best_spec: two qualifying candidates; the second has
the smaller (novel count, token count) key. -/
theorem c4_choose_best_witness :
    (∃ ls ∈ [⟨"Run fast".data, "Run fast".data, ["Run".data, "fast".data],
        ["run".data, "fast".data]⟩,
      (⟨"Run".data, "Run".data, ["Run".data], ["run".data]⟩ :
        LemmatizedSentence)], lowerStr "run".data ∈ lemmasLower ls) ∧
    ∃ sc, choose_best_sentence "run".data
        [⟨"Run fast".data, "Run fast".data, ["Run".data, "fast".data],
          ["run".data, "fast".data]⟩,
         ⟨"Run".data, "Run".data, ["Run".data], ["run".data]⟩] [] = some sc ∧
      lowerStr "run".data ∈ lemmasLower sc.ls ∧
      sc.unknown_count = ((lemmasLower sc.ls).filter
        (fun l => decide (l ∉ ([] : List Str).map lowerStr))).dedup.length ∧
      sc.token_count = sc.ls.tokens.length ∧
      (∀ c ∈ scoreCandidates (lowerStr "run".data)
        [⟨"Run fast".data, "Run fast".data, ["Run".data, "fast".data],
          ["run".data, "fast".data]⟩,
         ⟨"Run".data, "Run".data, ["Run".data], ["run".data]⟩]
        (([] : List Str).map lowerStr), ¬ keyLt c sc) ∧
      ∃ pre post, scoreCandidates (lowerStr "run".data)
          [⟨"Run fast".data, "Run fast".data, ["Run".data, "fast".data],
            ["run".data, "fast".data]⟩,
           ⟨"Run".data, "Run".data, ["Run".data], ["run".data]⟩]
          (([] : List Str).map lowerStr) = pre ++ sc :: post ∧
        ∀ c ∈ pre, keyLt sc c :=
  ⟨by decide,
    c4_choose_best_spec "run".data
      [⟨"Run fast".data, "Run fast".data, ["Run".data, "fast".data],
        ["run".data, "fast".data]⟩,
       ⟨"Run".data, "Run".data, ["Run".data], ["run".data]⟩] [] (by decide)⟩

/-! ## C6: the NoCandidate outcome and the abort of the run. -/

/-- C6: when no returned candidate case-folds to contain the located target
lemma, the scorer returns the distinct None outcome (not an error), the step
produces no output file, and the whole run stops, having written nothing. -/
theorem c6_no_candidate_aborts (entries : List ListEntry) (skip_count : Int)
    (oracle : Nat → List LemmatizedSentence) (steps k idx : Nat) (lem : Str)
    (hfind : find_next_undone_lemma entries skip_count = some (idx, lem))
    (hnone : ∀ ls ∈ oracle k, lowerStr lem ∉ lemmasLower ls) :
    choose_best_sentence lem (oracle k)
      ((entries.take idx).map ListEntry.lem) = none ∧
    stepOnce entries skip_count (oracle k) = none ∧
    runSteps skip_count oracle steps k entries = [] := by
  have hQ : scoreCandidates (lowerStr lem) (oracle k)
      (((entries.take idx).map ListEntry.lem).map lowerStr) = [] := by
    unfold scoreCandidates
    rw [List.filterMap_eq_nil_iff]
    intro ls hls
    rw [if_neg (hnone ls hls)]
  have hcb : choose_best_sentence lem (oracle k)
      ((entries.take idx).map ListEntry.lem) = none := by
    unfold choose_best_sentence
    rw [hQ]
  have hstep : stepOnce entries skip_count (oracle k) = none := by
    unfold stepOnce
    rw [hfind]
    simp only []
    rw [hcb]
  refine ⟨hcb, hstep, ?_⟩
  cases steps with
  | zero => rfl
  | succ m =>
    rw [runSteps, hstep]

/-- Witness for c6_no_candidate_aborts: one unfinished entry a, a single
candidate lemmatizing to b only, three requested steps: no file contents are
produced. -/
theorem c6_no_candidate_witness :
    choose_best_sentence "a".data
      ((fun _ : Nat => [(⟨"b".data, "b".data, ["b".data], ["b".data]⟩ :
        LemmatizedSentence)]) 0)
      ((([⟨"a".data, none⟩] : List ListEntry).take 0).map ListEntry.lem) =
        none ∧
    stepOnce [⟨"a".data, none⟩] 0
      ((fun _ : Nat => [(⟨"b".data, "b".data, ["b".data], ["b".data]⟩ :
        LemmatizedSentence)]) 0) = none ∧
    runSteps 0 (fun _ : Nat => [(⟨"b".data, "b".data, ["b".data], ["b".data]⟩ :
      LemmatizedSentence)]) 3 0 [⟨"a".data, none⟩] = [] := by
  have h1 : ∀ ls ∈ (fun _ : Nat => [(⟨"b".data, "b".data, ["b".data],
      ["b".data]⟩ : LemmatizedSentence)]) 0,
      lowerStr "a".data ∉ lemmasLower ls := by decide
  exact c6_no_candidate_aborts [⟨"a".data, none⟩] 0
    (fun _ => [⟨"b".data, "b".data, ["b".data], ["b".data]⟩]) 3 0 0 "a".data
    (by decide) h1

/-! ## C8 and C1: decomposition of the apply_sentence_and_reorder output. -/

theorem take_set_of_le {α : Type} {l : List α} {i n : Nat} {a : α}
    (h : n ≤ i) : (l.set i a).take n = l.take n := by
  rw [List.set_take]
  apply List.set_eq_of_length_le
  calc (l.take n).length ≤ n := by
        rw [List.length_take]
        omega
    _ ≤ i := h

theorem apply_nil_eq (entries : List ListEntry) (idx : Nat)
    (chosen : LemmatizedSentence) (cur : ListEntry)
    (hcur : entries[idx]? = some cur) :
    apply_sentence_and_reorder entries idx chosen [] =
      (entries.set idx ⟨cur.lem, some chosen.original⟩, ⟨[], []⟩) := by
  unfold apply_sentence_and_reorder
  rw [hcur]
  rfl

theorem apply_ne_eq (entries : List ListEntry) (idx : Nat)
    (chosen : LemmatizedSentence) (ul : List Str) (cur : ListEntry)
    (hcur : entries[idx]? = some cur) (hne : ul ≠ []) :
    apply_sentence_and_reorder entries idx chosen ul =
      ((entries.set idx ⟨cur.lem, some chosen.original⟩).take idx ++
        toInsert entries
          (partitionUnknowns entries (lowerStr cur.lem) idx ul).1
          (partitionUnknowns entries (lowerStr cur.lem) idx ul).2 ul ++
        filteredAfter (partitionUnknowns entries (lowerStr cur.lem) idx ul).1
          ((entries.set idx ⟨cur.lem, some chosen.original⟩).drop idx),
       ⟨(partitionUnknowns entries (lowerStr cur.lem) idx ul).2,
        (partitionUnknowns entries (lowerStr cur.lem) idx ul).1⟩) := by
  unfold apply_sentence_and_reorder
  rw [hcur]
  simp only []
  rw [if_neg hne]

theorem currentPositionAfter_nil (entries : List ListEntry) (idx : Nat)
    (cur : ListEntry) (hcur : entries[idx]? = some cur) :
    currentPositionAfter entries idx [] = idx := by
  unfold currentPositionAfter
  rw [hcur]
  rfl

theorem currentPositionAfter_ne (entries : List ListEntry) (idx : Nat)
    (ul : List Str) (cur : ListEntry) (hcur : entries[idx]? = some cur)
    (hne : ul ≠ []) :
    currentPositionAfter entries idx ul =
      idx + (toInsert entries
        (partitionUnknowns entries (lowerStr cur.lem) idx ul).1
        (partitionUnknowns entries (lowerStr cur.lem) idx ul).2 ul).length := by
  unfold currentPositionAfter
  rw [hcur]
  simp only []
  rw [if_neg hne]

/-- The length of the before-slice of the reorder output. -/
theorem before_length (entries : List ListEntry) (idx : Nat) (row : ListEntry)
    (hlen : idx < entries.length) :
    ((entries.set idx row).take idx).length = idx := by
  rw [List.length_take, List.length_set]
  omega

/-- The updated current entry sits at its shifted position in the output of
apply_sentence_and_reorder. -/
theorem reorder_current_row (entries : List ListEntry) (idx : Nat)
    (chosen : LemmatizedSentence) (ul : List Str) (cur : ListEntry)
    (hcur : entries[idx]? = some cur) :
    (apply_sentence_and_reorder entries idx chosen
        ul).1[currentPositionAfter entries idx ul]? =
      some ⟨cur.lem, some chosen.original⟩ := by
  have hlen : idx < entries.length := (List.getElem?_eq_some_iff.mp hcur).1
  by_cases hne : ul = []
  · subst hne
    rw [apply_nil_eq entries idx chosen cur hcur,
      currentPositionAfter_nil entries idx cur hcur]
    exact List.getElem?_set_self hlen
  · rw [apply_ne_eq entries idx chosen ul cur hcur hne,
      currentPositionAfter_ne entries idx ul cur hcur hne]
    simp only []
    have hbl := before_length entries idx ⟨cur.lem, some chosen.original⟩ hlen
    rw [List.getElem?_append_right (by rw [List.length_append, hbl]; try omega)]
    rw [List.length_append, hbl]
    rw [show idx + (toInsert entries
        (partitionUnknowns entries (lowerStr cur.lem) idx ul).1
        (partitionUnknowns entries (lowerStr cur.lem) idx ul).2 ul).length -
      (idx + (toInsert entries
        (partitionUnknowns entries (lowerStr cur.lem) idx ul).1
        (partitionUnknowns entries (lowerStr cur.lem) idx ul).2 ul).length) =
      0 from by omega]
    have hset : idx < (entries.set idx
        ⟨cur.lem, some chosen.original⟩).length := by
      rw [List.length_set]
      exact hlen
    have hdrop : (entries.set idx ⟨cur.lem, some chosen.original⟩).drop idx =
        (⟨cur.lem, some chosen.original⟩ : ListEntry) ::
          (entries.set idx ⟨cur.lem, some chosen.original⟩).drop (idx + 1) := by
      rw [List.drop_eq_getElem_cons hset]
      congr 1
      exact List.getElem_set_self hset
    rw [hdrop, filteredAfter]
    exact List.getElem?_cons_zero

/-- Positions strictly before the current index are unchanged by
apply_sentence_and_reorder. -/
theorem apply_getElem_before (entries : List ListEntry) (idx : Nat)
    (chosen : LemmatizedSentence) (ul : List Str) (cur : ListEntry)
    (hcur : entries[idx]? = some cur) (j : Nat) (hj : j < idx) :
    (apply_sentence_and_reorder entries idx chosen ul).1[j]? = entries[j]? := by
  have hlen : idx < entries.length := (List.getElem?_eq_some_iff.mp hcur).1
  by_cases hne : ul = []
  · subst hne
    rw [apply_nil_eq entries idx chosen cur hcur]
    exact List.getElem?_set_ne (by omega)
  · rw [apply_ne_eq entries idx chosen ul cur hcur hne]
    simp only []
    have hbl := before_length entries idx ⟨cur.lem, some chosen.original⟩ hlen
    rw [List.getElem?_append_left (by rw [List.length_append, hbl]; omega)]
    rw [List.getElem?_append_left (by rw [hbl]; omega)]
    rw [List.getElem?_take_of_lt hj]
    exact List.getElem?_set_ne (by omega)

/-- An element of the insertion block sits at its shifted position in the
output of apply_sentence_and_reorder. -/
theorem apply_getElem_ins (entries : List ListEntry) (idx : Nat)
    (chosen : LemmatizedSentence) (ul : List Str) (cur : ListEntry)
    (hcur : entries[idx]? = some cur) (hne : ul ≠ []) (k : Nat)
    (x : ListEntry)
    (hk : (toInsert entries
      (partitionUnknowns entries (lowerStr cur.lem) idx ul).1
      (partitionUnknowns entries (lowerStr cur.lem) idx ul).2 ul)[k]? =
      some x) :
    (apply_sentence_and_reorder entries idx chosen ul).1[idx + k]? = some x := by
  have hlen : idx < entries.length := (List.getElem?_eq_some_iff.mp hcur).1
  have hkl : k < (toInsert entries
      (partitionUnknowns entries (lowerStr cur.lem) idx ul).1
      (partitionUnknowns entries (lowerStr cur.lem) idx ul).2 ul).length :=
    (List.getElem?_eq_some_iff.mp hk).1
  rw [apply_ne_eq entries idx chosen ul cur hcur hne]
  simp only []
  have hbl := before_length entries idx ⟨cur.lem, some chosen.original⟩ hlen
  rw [List.getElem?_append_left (by rw [List.length_append, hbl]; omega)]
  rw [List.getElem?_append_right (by rw [hbl]; omega)]
  rw [hbl, show idx + k - idx = k from by omega]
  exact hk

/-- Membership in prevKeys is the existence of an earlier entry with that
case-folded key. -/
theorem mem_prevKeys_iff (entries : List ListEntry) (idx : Nat) (lk : Str) :
    lk ∈ prevKeys entries idx ↔
      ∃ j e2, j < idx ∧ entries[j]? = some e2 ∧ lowerStr e2.lem = lk := by
  unfold prevKeys
  constructor
  · intro h
    obtain ⟨e2, he2, hk⟩ := List.mem_map.mp h
    obtain ⟨j, hj⟩ := List.mem_iff_getElem?.mp he2
    have hjlt : j < (entries.take idx).length :=
      (List.getElem?_eq_some_iff.mp hj).1
    rw [List.length_take] at hjlt
    have hji : j < idx := by omega
    refine ⟨j, e2, hji, ?_, hk⟩
    rw [← List.getElem?_take_of_lt hji]
    exact hj
  · rintro ⟨j, e2, hj, hje, hk⟩
    refine List.mem_map.mpr ⟨e2, ?_, hk⟩
    refine List.getElem?_mem (n := j) ?_
    rw [List.getElem?_take_of_lt hj]
    exact hje

/-- C8: the reorder operation leaves the entries strictly before
current_index unchanged (same entries, same order, same positions), and the
entry at current_index keeps its lemma text, receiving exactly the chosen
sentence as its sentence, at its (possibly shifted) position. -/
theorem c8_frame (entries : List ListEntry) (idx : Nat)
    (chosen : LemmatizedSentence) (ul : List Str) (cur : ListEntry)
    (hcur : entries[idx]? = some cur) :
    (apply_sentence_and_reorder entries idx chosen ul).1.take idx =
      entries.take idx ∧
    (apply_sentence_and_reorder entries idx chosen
        ul).1[currentPositionAfter entries idx ul]? =
      some ⟨cur.lem, some chosen.original⟩ := by
  have hlen : idx < entries.length := (List.getElem?_eq_some_iff.mp hcur).1
  refine ⟨?_, reorder_current_row entries idx chosen ul cur hcur⟩
  by_cases hne : ul = []
  · subst hne
    rw [apply_nil_eq entries idx chosen cur hcur]
    exact take_set_of_le (le_refl idx)
  · rw [apply_ne_eq entries idx chosen ul cur hcur hne]
    simp only []
    rw [List.append_assoc,
      List.take_left' (before_length entries idx
        ⟨cur.lem, some chosen.original⟩ hlen)]
    exact take_set_of_le (le_refl idx)

/-- Witness for c8_frame: a two-entry list, target at index 1, one wholly-new
unknown. -/
theorem c8_frame_witness :
    (apply_sentence_and_reorder [⟨"a".data, some "Sa".data⟩, ⟨"c".data, none⟩]
      1 ⟨"c z".data, "c z".data, ["c".data, "z".data], ["c".data, "z".data]⟩
      ["z".data]).1.take 1 =
      ([⟨"a".data, some "Sa".data⟩, ⟨"c".data, none⟩] :
        List ListEntry).take 1 ∧
    (apply_sentence_and_reorder [⟨"a".data, some "Sa".data⟩, ⟨"c".data, none⟩]
      1 ⟨"c z".data, "c z".data, ["c".data, "z".data], ["c".data, "z".data]⟩
      ["z".data]).1[currentPositionAfter
        [⟨"a".data, some "Sa".data⟩, ⟨"c".data, none⟩] 1 ["z".data]]? =
      some ⟨("c".data : Str), some "c z".data⟩ :=
  c8_frame [⟨"a".data, some "Sa".data⟩, ⟨"c".data, none⟩] 1
    ⟨"c z".data, "c z".data, ["c".data, "z".data], ["c".data, "z".data]⟩
    ["z".data] ⟨"c".data, none⟩ (by decide)

/-- C1 counterexample: the chosen sentence always contains the target lemma
itself, and the target key occupies exactly the position of the entry that
received the sentence, never a strictly smaller one.  On the one-entry list
run with the sentence Run (lemma sequence run), the output is the single
updated entry at position 0, and no position strictly below the current
position carries the key. -/
theorem c1_counterexample :
    "run".data ∈ (⟨"Run".data, "Run".data, ["Run".data], ["run".data]⟩ :
      LemmatizedSentence).lemmas ∧
    ¬ ∃ p e, p < currentPositionAfter [⟨"run".data, none⟩] 0
          (computeUnknowns ["run".data] (prevKeys [⟨"run".data, none⟩] 0)) ∧
        (apply_sentence_and_reorder [⟨"run".data, none⟩] 0
          ⟨"Run".data, "Run".data, ["Run".data], ["run".data]⟩
          (computeUnknowns ["run".data]
            (prevKeys [⟨"run".data, none⟩] 0))).1[p]? = some e ∧
        lowerStr e.lem = lowerStr "run".data := by
  constructor
  · decide
  · rintro ⟨p, e, hp, _, _⟩
    have h0 : currentPositionAfter [⟨"run".data, none⟩] 0
        (computeUnknowns ["run".data] (prevKeys [⟨"run".data, none⟩] 0)) =
        0 := by decide
    rw [h0] at hp
    omega

/-- C1 amended: after apply_sentence_and_reorder runs with the novel list the
orchestrator computes for the chosen sentence, the updated current entry sits
at its shifted position, and every non-empty case-folded lemma key of the
chosen sentence other than the current entry own key occupies some position
strictly below that shifted position. -/
theorem c1_curriculum_amended (entries : List ListEntry) (idx : Nat)
    (chosen : LemmatizedSentence) (cur : ListEntry)
    (hcur : entries[idx]? = some cur) :
    (apply_sentence_and_reorder entries idx chosen
        (computeUnknowns chosen.lemmas
          (prevKeys entries idx))).1[currentPositionAfter entries idx
        (computeUnknowns chosen.lemmas (prevKeys entries idx))]? =
      some ⟨cur.lem, some chosen.original⟩ ∧
    ∀ l ∈ chosen.lemmas, l ≠ [] → lowerStr l ≠ lowerStr cur.lem →
      ∃ p e, p < currentPositionAfter entries idx
          (computeUnknowns chosen.lemmas (prevKeys entries idx)) ∧
        (apply_sentence_and_reorder entries idx chosen
          (computeUnknowns chosen.lemmas (prevKeys entries idx))).1[p]? =
          some e ∧
        lowerStr e.lem = lowerStr l := by
  have hlen : idx < entries.length := (List.getElem?_eq_some_iff.mp hcur).1
  refine ⟨reorder_current_row entries idx chosen _ cur hcur, ?_⟩
  intro l hl hlne hlk
  set ul := computeUnknowns chosen.lemmas (prevKeys entries idx) with hul
  by_cases hmemp : lowerStr l ∈ prevKeys entries idx
  · obtain ⟨j, e2, hj, hje, hk⟩ :=
      (mem_prevKeys_iff entries idx (lowerStr l)).mp hmemp
    refine ⟨j, e2, ?_, ?_, hk⟩
    · by_cases hne : ul = []
      · rw [hne, currentPositionAfter_nil entries idx cur hcur]
        omega
      · rw [currentPositionAfter_ne entries idx ul cur hcur hne]
        omega
    · rw [apply_getElem_before entries idx chosen ul cur hcur j hj]
      exact hje
  · have hmem : lowerStr l ∈ ul := by
      rw [hul]
      unfold computeUnknowns
      refine List.mem_filterMap.mpr ⟨l, hl, ?_⟩
      rw [if_neg hlne, if_neg hmemp]
    have hne : ul ≠ [] := by
      intro h
      rw [h] at hmem
      simp at hmem
    have hgt : ∀ o, firstIndexOf entries (lowerStr l) = some o → idx < o := by
      intro o ho
      obtain ⟨e2, hge2, hk2⟩ := firstIdxAux_some ho
      by_contra hno
      push_neg at hno
      rcases Nat.lt_or_ge o idx with h1 | h1
      · exact hmemp ((mem_prevKeys_iff entries idx (lowerStr l)).mpr
          ⟨o, e2, h1, hge2, hk2⟩)
      · have ho2 : o = idx := by omega
        rw [ho2, hcur] at hge2
        have he2 : e2 = cur := (Option.some.inj hge2).symm
        rw [he2] at hk2
        exact hlk hk2.symm
    rcases partition_complete hgt hmem hlk with hrs | hoob
    · obtain ⟨_, _, o, ho, hio⟩ := partition_reorders_spec hrs
      obtain ⟨x, hx, hkx⟩ := toInsert_mem_of_reorder hrs ⟨o, ho⟩ hmem
      obtain ⟨k, hk⟩ := List.mem_iff_getElem?.mp hx
      refine ⟨idx + k, x, ?_,
        apply_getElem_ins entries idx chosen ul cur hcur hne k x hk, hkx⟩
      rw [currentPositionAfter_ne entries idx ul cur hcur hne]
      have hkb := (List.getElem?_eq_some_iff.mp hk).1
      omega
    · have hnrs : lowerStr l ∉
          (partitionUnknowns entries (lowerStr cur.lem) idx ul).1 := by
        intro hrs2
        obtain ⟨_, _, o, ho, _⟩ := partition_reorders_spec hrs2
        obtain ⟨e2, hge2, hk2⟩ := firstIdxAux_some ho
        have hhk : hasKey entries (lowerStr l) = true := by
          unfold hasKey
          rw [List.any_eq_true]
          exact ⟨e2, List.getElem?_mem hge2, by simp [hk2]⟩
        have hfalse := (partition_oob_spec hoob).2.2
        rw [hhk] at hfalse
        exact absurd hfalse (by decide)
      have hmemins := @toInsert_mem_of_oob entries _ _ _ hnrs hoob _ hmem
      obtain ⟨k, hk⟩ := List.mem_iff_getElem?.mp hmemins
      refine ⟨idx + k, ⟨lowerStr l, none⟩, ?_,
        apply_getElem_ins entries idx chosen ul cur hcur hne k _ hk, ?_⟩
      · rw [currentPositionAfter_ne entries idx ul cur hcur hne]
        have hkb := (List.getElem?_eq_some_iff.mp hk).1
        omega
      · exact lowerStr_idem l

/-- Witness for c1_curriculum_amended: a two-entry list, target c at index 1,
chosen sentence lemmatizing to c and the wholly-new z. -/
theorem c1_curriculum_amended_witness :
    (apply_sentence_and_reorder [⟨"a".data, some "Sa".data⟩, ⟨"c".data, none⟩]
        1 ⟨"c z".data, "c z".data, ["c".data, "z".data], ["c".data, "z".data]⟩
        (computeUnknowns ["c".data, "z".data]
          (prevKeys [⟨"a".data, some "Sa".data⟩, ⟨"c".data, none⟩]
            1))).1[currentPositionAfter
        [⟨"a".data, some "Sa".data⟩, ⟨"c".data, none⟩] 1
        (computeUnknowns ["c".data, "z".data]
          (prevKeys [⟨"a".data, some "Sa".data⟩, ⟨"c".data, none⟩] 1))]? =
      some ⟨("c".data : Str), some "c z".data⟩ ∧
    ∀ l ∈ (⟨"c z".data, "c z".data, ["c".data, "z".data],
        ["c".data, "z".data]⟩ : LemmatizedSentence).lemmas, l ≠ [] →
      lowerStr l ≠ lowerStr ("c".data : Str) →
      ∃ p e, p < currentPositionAfter
          [⟨"a".data, some "Sa".data⟩, ⟨"c".data, none⟩] 1
          (computeUnknowns ["c".data, "z".data]
            (prevKeys [⟨"a".data, some "Sa".data⟩, ⟨"c".data, none⟩] 1)) ∧
        (apply_sentence_and_reorder
          [⟨"a".data, some "Sa".data⟩, ⟨"c".data, none⟩] 1
          ⟨"c z".data, "c z".data, ["c".data, "z".data],
            ["c".data, "z".data]⟩
          (computeUnknowns ["c".data, "z".data]
            (prevKeys [⟨"a".data, some "Sa".data⟩, ⟨"c".data, none⟩]
              1))).1[p]? = some e ∧
        lowerStr e.lem = lowerStr l :=
  c1_curriculum_amended [⟨"a".data, some "Sa".data⟩, ⟨"c".data, none⟩] 1
    ⟨"c z".data, "c z".data, ["c".data, "z".data], ["c".data, "z".data]⟩
    ⟨"c".data, none⟩ (by decide)

/-! ## C2: duplicate relocation through the orchestrator unknowns list. -/

/-- Number of entries of a list whose case-folded lemma equals a key. -/
def keyCount (entries : List ListEntry) (key : Str) : Nat :=
  entries.countP (fun e => decide (lowerStr e.lem = key))

/-- C2 failing input, evaluated: the list holds one entry for dog; the chosen
sentence for the target a lemmatizes to a, dog, dog, so the orchestrator
hands the reorder engine the unknowns list with dog twice (lang_gen.py 555
preserves duplicates); the engine then inserts the relocated dog entry twice,
and the written output carries the key dog twice though the input carried it
once. -/
theorem c2_duplicate_insertion :
    computeUnknowns ["a".data, "dog".data, "dog".data]
      (prevKeys [⟨"a".data, none⟩, ⟨"dog".data, none⟩] 0) =
      ["a".data, "dog".data, "dog".data] ∧
    keyCount [⟨"a".data, none⟩, ⟨"dog".data, none⟩] "dog".data = 1 ∧
    stepOnce [⟨"a".data, none⟩, ⟨"dog".data, none⟩] 0
      [⟨"a dog dog".data, "a dog dog".data,
        ["a".data, "dog".data, "dog".data],
        ["a".data, "dog".data, "dog".data]⟩] =
      some [⟨"dog".data, none⟩, ⟨"dog".data, none⟩,
        ⟨"a".data, some "a dog dog".data⟩] ∧
    keyCount [⟨"dog".data, none⟩, ⟨"dog".data, none⟩,
      ⟨"a".data, some "a dog dog".data⟩] "dog".data = 2 := by
  refine ⟨by decide, by decide, by decide, by decide⟩

end LangGen
